import Mathlib

/-!
Verification development for the Librarian-AI repository.

Text is modelled as `List Char` (`Str`), matching Python's per-code-point
string semantics (`len`, slicing, iteration).  Each embedded definition
mirrors one function of the source tree; fallible Python code is embedded
as `Except`-valued functions, network and library boundaries as function
parameters.
-/

/-- Python strings, one `Char` per code point. -/
abbrev Str := List Char

/-- Python's whitespace test, restricted to the ASCII whitespace characters
(`Char.isWhitespace`); the claims' inputs contain no exotic whitespace. -/
def wsChar (c : Char) : Bool := c.isWhitespace

/-- Python `str.strip()`: remove leading and trailing whitespace. -/
def pyStrip (s : Str) : Str :=
  ((s.dropWhile wsChar).reverse.dropWhile wsChar).reverse

theorem length_dropWhile_le' (p : Char → Bool) : ∀ s : Str, (s.dropWhile p).length ≤ s.length
  | [] => le_refl _
  | c :: rest => by
    by_cases h : p c
    · simp only [List.dropWhile, h]
      have := length_dropWhile_le' p rest
      simp only [List.length_cons]
      omega
    · simp [List.dropWhile, h]

theorem pyStrip_length_le (s : Str) : (pyStrip s).length ≤ s.length := by
  unfold pyStrip
  have h1 : (s.dropWhile wsChar).length ≤ s.length := length_dropWhile_le' wsChar s
  have h2 : ((s.dropWhile wsChar).reverse.dropWhile wsChar).length ≤
      (s.dropWhile wsChar).reverse.length :=
    length_dropWhile_le' wsChar (s.dropWhile wsChar).reverse
  simp only [List.length_reverse] at *
  omega

/-- `re.split(r'\s+', s)`: split on maximal whitespace runs (a leading run
produces an empty first piece, a trailing run an empty last piece, as in
Python).  The boolean records whether a whitespace run is being skipped. -/
def splitWsGo : Bool → Str → Str → List Str
  | _, acc, [] => [acc.reverse]
  | skipping, acc, c :: rest =>
    if wsChar c then
      if skipping then splitWsGo true acc rest
      else acc.reverse :: splitWsGo true [] rest
    else splitWsGo false (c :: acc) rest

def splitWs (s : Str) : List Str := splitWsGo false [] s

/-- Python `str.split(sep)` for the two-character separator `"\n\n"`,
leftmost non-overlapping occurrences. -/
def splitNN (acc : Str) : Str → List Str
  | '\n' :: '\n' :: rest => acc.reverse :: splitNN [] rest
  | c :: rest => splitNN (c :: acc) rest
  | [] => [acc.reverse]

/-- `sep.join(pieces)`. -/
def joinSep (sep : Str) : List Str → Str
  | [] => []
  | [p] => p
  | p :: q :: rest => p ++ sep ++ joinSep sep (q :: rest)

namespace EntityExtractor

/-- A named entity as produced by `core/1/entity_extractor_advanced.py`. -/
structure Entity where
  label : Str
  text : Str
  value : Str
  context : Option Str := none
  confidence : Option ℚ := none
deriving DecidableEq, Repr

/-- Python `\w` (word character) restricted to ASCII alphanumerics,
underscore and the Cyrillic block — the only characters the sources use. -/
def isWordChar (c : Char) : Bool :=
  c.isAlphanum || c = '_' || (0x400 ≤ c.toNat && c.toNat ≤ 0x4FF)

/-- Case folding for the `re.IGNORECASE` match of the corporate-suffix
pattern: ASCII lowering plus the Cyrillic letters appearing in the
suffix list (О, А, З). -/
def foldChar (c : Char) : Char :=
  if c = 'О' then 'о' else if c = 'А' then 'а' else if c = 'З' then 'з'
  else c.toLower

/-- The alternatives of `\b(LLC|Inc|Corp|Ltd|ООО|АО|ЗАО)\b`, in the
pattern's order. -/
def orgSuffixes : List Str :=
  ["LLC".toList, "Inc".toList, "Corp".toList, "Ltd".toList,
   "ООО".toList, "АО".toList, "ЗАО".toList]

/-- Does `s` start with suffix word `w` (case-insensitively), followed by a
word boundary?  Returns the match length. -/
def trySuffix (s : Str) : Option Nat :=
  (orgSuffixes.filter (fun w =>
    ((s.take w.length).map foldChar == w.map foldChar) &&
    (match s.drop w.length with
     | [] => true
     | c :: _ => !isWordChar c))).head?.map List.length

/-- `re.sub(r'\b(LLC|Inc|Corp|Ltd|ООО|АО|ЗАО)\b', '', s, flags=IGNORECASE)`:
left-to-right scan removing boundary-delimited suffix words.  The flag
tracks whether the previous original character was a word character
(the `\b` look-behind); the fuel argument (instantiated with the string's
length, an upper bound on the scan steps) keeps the recursion structural. -/
def orgStripGo : Nat → Bool → Str → Str
  | _, _, [] => []
  | 0, _, s => s
  | fuel + 1, prevW, c :: rest =>
    match (if prevW then none else trySuffix (c :: rest)) with
    | some n => orgStripGo fuel true (rest.drop (n - 1))
    | none => c :: orgStripGo fuel (isWordChar c) rest

def orgStrip (s : Str) : Str := orgStripGo s.length false s

/-- Python `str.title()` on ASCII letters: uppercase each letter following a
non-letter, lowercase the rest. -/
def pyTitle (prevAlpha : Bool) : Str → Str
  | [] => []
  | c :: rest =>
    (if c.isAlpha then (if prevAlpha then c.toLower else c.toUpper) else c)
      :: pyTitle c.isAlpha rest

/-- `EntityExtractor._normalize_entity`.  The DATE and MONEY/QUANTITY
branches call the boundary libraries `dateutil` and `babel`; they are
passed in as parameters (`none` models a parse failure, which the
source's bare `except` turns into "leave the value unchanged"). -/
def normalizeEntity (dateParse : Str → Option Str) (decParse : Str → Option Str)
    (e : Entity) : Entity :=
  let v := e.value
  let normValue : Str :=
    if e.label = "PERSON".toList ∨ e.label = "PER".toList then
      match splitWs v with
      | p0 :: p1 :: ps =>
        p0 ++ ' ' :: (joinSep ['.'] ((p1 :: ps).filterMap (fun p => p.head?.map ([·])))) ++ ['.']
      | _ => v
    else if e.label = "ORG".toList ∨ e.label = "ORGANIZATION".toList then
      pyTitle false (pyStrip ((orgStrip v).filter (fun c => isWordChar c || wsChar c)))
    else if e.label = "DATE".toList then
      (dateParse v).getD v
    else if e.label = "MONEY".toList ∨ e.label = "QUANTITY".toList then
      (decParse (v.map (fun c => if c = ',' then '.' else c))).getD v
    else v
  { label := e.label, text := e.text, value := normValue,
    context := e.context, confidence := e.confidence }

end EntityExtractor

namespace LLMRouter

/-- The provider enumeration of `llm/llm_router.py`. -/
inductive LLMProvider | openrouter | gigachat | yandexgpt | mistral | dolphin
deriving DecidableEq, Repr

/-- An `LLMRouter` instance: the provider dispatch table built by
`_init_providers` (each entry a network-boundary call that either returns
a response or raises, modelled as `Except`), and the default provider
(`GIGACHAT` in the source's constructor default). -/
structure Router where
  providers : LLMProvider → Str → Except Str Str
  defaultProvider : LLMProvider := .gigachat

/-- The literal fixed failure string returned when the fallback provider
also fails. -/
def failureMessage : Str := "Не удалось обработать запрос.".toList

/-- `LLMRouter._fallback`: query GigaChat directly; on any exception return
the fixed failure string.  (`self.providers[GIGACHAT]` is the same
`_query_gigachat` bound method the dispatch table holds.) -/
def fallback (R : Router) (prompt : Str) : Str :=
  match R.providers .gigachat prompt with
  | .ok r => r
  | .error _ => failureMessage

/-- `LLMRouter.generate`: dispatch to the chosen (or default) provider;
any exception triggers `_fallback`. -/
def generate (R : Router) (prompt : Str) (provider : Option LLMProvider) : Str :=
  let p := provider.getD R.defaultProvider
  match R.providers p prompt with
  | .ok r => r
  | .error _ => fallback R prompt

end LLMRouter

/-- C3: for every prompt, if the selected provider's call raises, `generate()`
returns the fallback provider's (GigaChat's) response; if the fallback also
raises, `generate()` returns the literal fixed failure string
"Не удалось обработать запрос." — and in both cases no exception propagates
(`generate` is total by construction, mirroring the source's catch-all
`except` blocks). -/
theorem llm_router_fallback (R : LLMRouter.Router) (prompt : Str)
    (p : Option LLMRouter.LLMProvider) (e : Str)
    (hfail : R.providers (p.getD R.defaultProvider) prompt = .error e) :
    (∀ r, R.providers .gigachat prompt = .ok r →
        LLMRouter.generate R prompt p = r) ∧
    (∀ e', R.providers .gigachat prompt = .error e' →
        LLMRouter.generate R prompt p = LLMRouter.failureMessage) := by
  constructor
  · intro r hok
    simp [LLMRouter.generate, hfail, LLMRouter.fallback, hok]
  · intro e' herr
    simp [LLMRouter.generate, hfail, LLMRouter.fallback, herr]

/-- Witness for C3: a concrete router whose selected provider fails and whose
GigaChat fallback answers, and one whose fallback also fails. -/
theorem llm_router_fallback_witness :
    (let R : LLMRouter.Router :=
      { providers := fun p _ => match p with
          | .openrouter => .error "boom".toList
          | _ => .ok "ok".toList }
     LLMRouter.generate R "hi".toList (some .openrouter) = "ok".toList) ∧
    (let R2 : LLMRouter.Router := { providers := fun _ _ => .error "down".toList }
     LLMRouter.generate R2 "hi".toList none = LLMRouter.failureMessage) := by
  refine ⟨?_, ?_⟩
  · exact (llm_router_fallback _ _ _ _ rfl).1 _ rfl
  · exact (llm_router_fallback _ _ _ _ rfl).2 _ rfl

/-- C5: normalizing `{label: "ORG", value: "Acme Corp."}` yields value
`"Acme"` (corporate suffix stripped, punctuation removed, title-cased), and
normalizing `{label: "PERSON", value: "Ivan Petrov"}` yields value
`"Ivan P."` (first name plus initials of the remaining parts).  The
boundary date/decimal parsers are instantiated trivially; neither branch
consults them. -/
theorem entity_normalization_cases :
    (EntityExtractor.normalizeEntity (fun _ => none) (fun _ => none)
      { label := "ORG".toList, text := "Acme Corp.".toList,
        value := "Acme Corp.".toList }).value = "Acme".toList ∧
    (EntityExtractor.normalizeEntity (fun _ => none) (fun _ => none)
      { label := "PERSON".toList, text := "Ivan Petrov".toList,
        value := "Ivan Petrov".toList }).value = "Ivan P.".toList := by
  constructor <;> decide

namespace KeywordSearch

/-- One row of the FTS query's result set in
`core/services/keyword_Search.py`: `doc_id`, highlighted text, the
`bm25(fts_docs)` relevance value, and the metadata JSON blob.  SQLite's
`bm25()` auxiliary function returns values that are *smaller for better
matches* — the negated BM25 score, never positive for a matching row. -/
structure Row where
  doc_id : Str
  text : Str
  score : ℚ
  metadata : Str
deriving DecidableEq, Repr

/-- `KeywordSearch.search` from the SQL result set onward: the rows arrive
`ORDER BY score` (ascending, best match first under SQLite's bm25
convention); the loop skips every row with `score < min_score` and the
final list is truncated to `limit`. -/
def search (rows : List Row) (limit : Nat) (minScore : ℚ) : List Row :=
  (rows.filter (fun r => !decide (r.score < minScore))).take limit

end KeywordSearch

/-- C4: with the default `min_score = 0.1`, `search` returns the empty list
whenever every matched row's bm25 value is ≤ 0 — which is always the case
for SQLite's `bm25()` (smaller is better; matching rows score ≤ 0).  The
filter `row[2] < min_score` therefore discards every match, including the
document containing all query terms, instead of excluding low-relevance
results. -/
theorem keyword_search_min_score_drops_all (rows : List KeywordSearch.Row)
    (limit : Nat) (hneg : ∀ r ∈ rows, r.score ≤ 0) :
    KeywordSearch.search rows limit (1/10) = [] := by
  unfold KeywordSearch.search
  have hfilter : rows.filter (fun r => !decide (r.score < 1/10)) = [] := by
    rw [List.filter_eq_nil_iff]
    intro r hr
    have := hneg r hr
    simp only [Bool.not_eq_true', decide_eq_false_iff_not, not_not]
    linarith
  rw [hfilter, List.take_nil]

/-- Witness for C4: a two-document result set — the qualifying document
matched (bm25 value −1/2), the other did not match at all (no row) — yet
`search` returns nothing. -/
theorem keyword_search_min_score_drops_all_witness :
    KeywordSearch.search
      [{ doc_id := "doc1".toList, text := "apple banana".toList,
         score := -1/2, metadata := "{}".toList }] 10 (1/10) = [] :=
  keyword_search_min_score_drops_all _ 10 (by
    intro r hr
    simp only [List.mem_singleton] at hr
    subst hr
    norm_num)

namespace Retriever

/-- A per-vector metadata record (`self.metadata` entries): a free-form
dict; placeholder records map `"vector_id"` to the vector's index. -/
abbrev Meta := List (Str × Nat)

/-- An embedding vector (numpy float32 array). -/
abbrev Vec := List ℚ

/-- The retriever's persistent state: the FAISS index's vector count
(`self.index.ntotal`) and the parallel metadata list (`self.metadata`). -/
structure RState where
  ntotal : Nat
  metadata : List Meta
deriving DecidableEq, Repr

/-- The batch loop of `Retriever.update_index`: for each `batch_size` slice,
`self.index.add` grows the index by the slice's vector count and
`self.metadata.extend` appends the slice's metadata.  Fuel (instantiated
with the vector count, an upper bound on the number of batches for
`batch_size ≥ 1`) keeps the recursion structural. -/
def updateBatchesGo : Nat → RState → List Vec → List Meta → Nat → RState
  | _, s, [], _, _ => s
  | 0, s, _, _, _ => s
  | fuel + 1, s, vecs, metas, bs =>
    updateBatchesGo fuel
      ⟨s.ntotal + (vecs.take bs).length, s.metadata ++ metas.take bs⟩
      (vecs.drop bs) (metas.drop bs) bs

/-- `Retriever.update_index`: reject a batch whose vector count differs from
its metadata count (`raise ValueError`), otherwise append both in
`batch_size` slices. -/
def update_index (s : RState) (vecs : List Vec) (metas : List Meta)
    (batchSize : Nat) : Except Str RState :=
  if vecs.length ≠ metas.length then
    .error "Количество векторов и метаданных не совпадает".toList
  else
    .ok (updateBatchesGo vecs.length s vecs metas batchSize)

/-- `Retriever._rebuild_index_metadata`: placeholder records
`{"vector_id": i}` for each vector in the index. -/
def rebuildIndexMetadata (ntotal : Nat) : List Meta :=
  (List.range ntotal).map (fun i => [("vector_id".toList, i)])

/-- `Retriever._load_resources`: after reading the index and unpickling the
metadata, a count mismatch triggers `_rebuild_index_metadata`. -/
def loadResources (ntotal : Nat) (loaded : List Meta) : RState :=
  if loaded.length ≠ ntotal then ⟨ntotal, rebuildIndexMetadata ntotal⟩
  else ⟨ntotal, loaded⟩

theorem updateBatchesGo_eq (bs : Nat) (hbs : 1 ≤ bs) :
    ∀ fuel vecs metas s, vecs.length ≤ fuel → metas.length = vecs.length →
      updateBatchesGo fuel s vecs metas bs =
        ⟨s.ntotal + vecs.length, s.metadata ++ metas⟩ := by
  intro fuel
  induction fuel with
  | zero =>
    intro vecs metas s hle hm
    have hv : vecs = [] := List.length_eq_zero.mp (Nat.le_zero.mp hle)
    subst hv
    have hmm : metas = [] := List.length_eq_zero.mp (by omega)
    subst hmm
    simp [updateBatchesGo]
  | succ n ih =>
    intro vecs metas s hle hm
    match vecs with
    | [] =>
      have hmm : metas = [] := List.length_eq_zero.mp (by simpa using hm)
      subst hmm
      simp [updateBatchesGo]
    | v :: vs =>
      rw [updateBatchesGo]
      rw [ih ((v :: vs).drop bs) (metas.drop bs) _
        (by
          have := (v :: vs).length_drop bs
          simp only [List.length_cons] at *
          omega)
        (by
          rw [List.length_drop, List.length_drop, hm])]
      simp only [RState.mk.injEq]
      refine ⟨?_, ?_⟩
      · simp only [List.length_take, List.length_drop, List.length_cons]
        omega
      · rw [List.append_assoc, List.take_append_drop]
      · simp

end Retriever

/-- C9: `update_index` rejects (raises `ValueError`) any batch whose vector
count differs from its metadata count, and otherwise appends both in equal
numbers, so `index.ntotal = len(metadata)` is preserved; on load, a count
mismatch triggers a metadata rebuild with placeholder records, after which
the counts are equal again. -/
theorem retriever_index_metadata_invariant (s : Retriever.RState)
    (vecs : List Retriever.Vec) (metas : List Retriever.Meta)
    (bs : Nat) (hbs : 1 ≤ bs) :
    (vecs.length ≠ metas.length →
      Retriever.update_index s vecs metas bs =
        .error "Количество векторов и метаданных не совпадает".toList) ∧
    (vecs.length = metas.length →
      Retriever.update_index s vecs metas bs =
        .ok ⟨s.ntotal + vecs.length, s.metadata ++ metas⟩) ∧
    (vecs.length = metas.length → s.ntotal = s.metadata.length →
      ∀ s', Retriever.update_index s vecs metas bs = .ok s' →
        s'.ntotal = s'.metadata.length) ∧
    (∀ n loaded, (Retriever.loadResources n loaded).ntotal =
        (Retriever.loadResources n loaded).metadata.length ∧
      (loaded.length ≠ n → (Retriever.loadResources n loaded).metadata =
        Retriever.rebuildIndexMetadata n)) := by
  refine ⟨?_, ?_, ?_, ?_⟩
  · intro hne
    simp [Retriever.update_index, hne]
  · intro heq
    unfold Retriever.update_index
    rw [if_neg (by omega)]
    rw [Retriever.updateBatchesGo_eq bs hbs vecs.length vecs metas s (le_refl _) heq.symm]
  · intro heq hinv s' hok
    unfold Retriever.update_index at hok
    rw [if_neg (by omega)] at hok
    rw [Retriever.updateBatchesGo_eq bs hbs vecs.length vecs metas s (le_refl _) heq.symm] at hok
    cases hok
    simp only [List.length_append]
    omega
  · intro n loaded
    constructor
    · by_cases h : loaded.length = n
      · simp [Retriever.loadResources, h]
      · simp [Retriever.loadResources, h, Retriever.rebuildIndexMetadata]
    · intro h
      simp [Retriever.loadResources, h]

/-- Witness for C9: a concrete two-vector update on a one-vector state, and
a mismatched load that rebuilds one placeholder record. -/
theorem retriever_index_metadata_invariant_witness :
    (Retriever.update_index ⟨1, [[]]⟩ [[1], [2]] [[], []] 1000 =
      .ok ⟨3, [[], [], []]⟩) ∧
    (Retriever.loadResources 1 []).metadata = Retriever.rebuildIndexMetadata 1 := by
  constructor
  · exact (retriever_index_metadata_invariant ⟨1, [[]]⟩ [[1], [2]] [[], []]
      1000 (by norm_num)).2.1 rfl
  · exact ((retriever_index_metadata_invariant ⟨0, []⟩ [] [] 1000
      (by norm_num)).2.2.2 1 []).2 (by decide)

namespace Retriever

/-- A search result entering `_combine_results`: its `vector_id` and its
`score` (semantic similarity or keyword hit count). -/
structure SResult where
  vector_id : Nat
  score : ℚ
deriving DecidableEq, Repr

/-- An entry of the `combined` dict: the carried-over fields and the
accumulated `combined_score`. -/
structure CResult where
  vector_id : Nat
  score : ℚ
  combined_score : ℚ
deriving DecidableEq, Repr

/-- Python `max(xs)` with the source's `if xs else 1` default. -/
def pyMax : List ℚ → ℚ
  | [] => 1
  | x :: xs => xs.foldl max x

/-- Descending order on `combined_score` (the `sorted(..., reverse=True)`
key). -/
def cLe (a b : CResult) : Prop := b.combined_score ≤ a.combined_score

instance : DecidableRel cLe := fun _ _ => inferInstanceAs (Decidable (_ ≤ _))

instance : IsTotal CResult cLe := ⟨fun _ _ => le_total _ _⟩

instance : IsTrans CResult cLe := ⟨fun _ _ _ h1 h2 => le_trans h2 h1⟩

/-- The semantic-pass entry `{**r, "combined_score": alpha * (score/max_sem)}`. -/
def mkSem (alpha maxSem : ℚ) (r : SResult) : CResult :=
  ⟨r.vector_id, r.score, alpha * (r.score / maxSem)⟩

/-- A Python dict assignment `combined[doc_id] = e`: replace in place when
the key exists (keeping its position), append otherwise. -/
def dictSet (acc : List CResult) (e : CResult) : List CResult :=
  if acc.any (fun x => x.vector_id == e.vector_id) then
    acc.map (fun x => if x.vector_id == e.vector_id then e else x)
  else acc ++ [e]

/-- One step of the keyword pass of `_combine_results`: add the keyword
share to an existing entry, or insert a keyword-only entry. -/
def kwStep (alpha maxKw : ℚ) (acc : List CResult) (r : SResult) : List CResult :=
  if acc.any (fun x => x.vector_id == r.vector_id) then
    acc.map (fun x => if x.vector_id == r.vector_id then
      { x with combined_score := x.combined_score + (1 - alpha) * (r.score / maxKw) } else x)
  else acc ++ [⟨r.vector_id, r.score, (1 - alpha) * (r.score / maxKw)⟩]

/-- `Retriever._combine_results`: normalise both score sets by their maxima,
blend with weight `alpha`, and sort descending (`List.insertionSort` is
stable, like Python's `sorted`). -/
def combineResults (semantic keyword : List SResult) (alpha : ℚ) : List CResult :=
  let maxSem := pyMax (semantic.map (·.score))
  let maxKw := pyMax (keyword.map (·.score))
  let d1 := semantic.foldl (fun acc r => dictSet acc (mkSem alpha maxSem r)) []
  let d2 := keyword.foldl (kwStep alpha maxKw) d1
  List.insertionSort cLe d2

/-- The dict lookup used by the proofs: the first (and with distinct ids,
only) entry with the given `vector_id`. -/
def entryAt (d : Nat) (l : List CResult) : Option CResult :=
  l.find? (fun x => x.vector_id == d)

theorem pass1_eq (alpha maxS : ℚ) :
    ∀ (sem : List SResult) (acc : List CResult),
      (∀ r ∈ sem, ∀ x ∈ acc, x.vector_id ≠ r.vector_id) →
      (sem.map (·.vector_id)).Nodup →
      sem.foldl (fun acc r => dictSet acc (mkSem alpha maxS r)) acc
        = acc ++ sem.map (mkSem alpha maxS) := by
  intro sem
  induction sem with
  | nil => intro acc _ _; simp
  | cons r rs ih =>
    intro acc hdisj hnd
    have hany : acc.any (fun x => x.vector_id == (mkSem alpha maxS r).vector_id) = false := by
      rw [List.any_eq_false]
      intro x hx
      simp only [mkSem, beq_iff_eq]
      exact hdisj r (by simp) x hx
    rw [List.foldl_cons]
    have hstep : dictSet acc (mkSem alpha maxS r) = acc ++ [mkSem alpha maxS r] := by
      unfold dictSet
      rw [hany]
      simp
    rw [hstep]
    rw [ih (acc ++ [mkSem alpha maxS r])
      (by
        intro r' hr' x hx
        rcases List.mem_append.mp hx with hx | hx
        · exact hdisj r' (by simp [hr']) x hx
        · simp only [List.mem_singleton] at hx
          subst hx
          simp only [mkSem]
          simp only [List.map_cons, List.nodup_cons, List.mem_map] at hnd
          intro heq
          exact hnd.1 ⟨r', hr', heq.symm⟩)
      (by simp only [List.map_cons, List.nodup_cons] at hnd; exact hnd.2)]
    simp

theorem entryAt_cons_pos (d : Nat) (h : CResult) (t : List CResult)
    (hh : h.vector_id = d) : entryAt d (h :: t) = some h := by
  unfold entryAt
  rw [List.find?_cons_of_pos _ (by simp [hh])]

theorem entryAt_cons_neg (d : Nat) (h : CResult) (t : List CResult)
    (hh : h.vector_id ≠ d) : entryAt d (h :: t) = entryAt d t := by
  unfold entryAt
  rw [List.find?_cons_of_neg _ (by simp [hh])]

theorem entryAt_map_preserve (g : CResult → CResult)
    (hid : ∀ y, (g y).vector_id = y.vector_id) (d : Nat)
    (hfix : ∀ y, y.vector_id = d → g y = y) :
    ∀ l, entryAt d (l.map g) = entryAt d l := by
  intro l
  induction l with
  | nil => rfl
  | cons h t iht =>
    rw [List.map_cons]
    by_cases hh : h.vector_id = d
    · rw [entryAt_cons_pos d (g h) (t.map g) (by rw [hid]; exact hh),
        entryAt_cons_pos d h t hh, hfix h hh]
    · rw [entryAt_cons_neg d (g h) (t.map g) (by rw [hid]; exact hh),
        entryAt_cons_neg d h t hh]
      exact iht

theorem entryAt_map_update (g : CResult → CResult)
    (hid : ∀ y, (g y).vector_id = y.vector_id) (d : Nat) :
    ∀ l e, entryAt d l = some e → entryAt d (l.map g) = some (g e) := by
  intro l
  induction l with
  | nil => intro e he; simp [entryAt, List.find?] at he
  | cons h t iht =>
    intro e he
    rw [List.map_cons]
    by_cases hh : h.vector_id = d
    · rw [entryAt_cons_pos d h t hh, Option.some.injEq] at he
      obtain rfl := he
      rw [entryAt_cons_pos d (g h) (t.map g) (by rw [hid]; exact hh)]
    · rw [entryAt_cons_neg d h t hh] at he
      rw [entryAt_cons_neg d (g h) (t.map g) (by rw [hid]; exact hh)]
      exact iht e he

theorem entryAt_append_single (d : Nat) (new : CResult) (hne : new.vector_id ≠ d) :
    ∀ l, entryAt d (l ++ [new]) = entryAt d l := by
  intro l
  induction l with
  | nil =>
    simp only [List.nil_append]
    rw [entryAt_cons_neg d new [] hne]
  | cons h t iht =>
    rw [List.cons_append]
    by_cases hh : h.vector_id = d
    · rw [entryAt_cons_pos d h _ hh, entryAt_cons_pos d h t hh]
    · rw [entryAt_cons_neg d h _ hh, entryAt_cons_neg d h t hh]
      exact iht

theorem entryAt_kwStep_nomatch (alpha maxK : ℚ) (d : Nat) (x : SResult)
    (hx : x.vector_id ≠ d) :
    ∀ dict, entryAt d (kwStep alpha maxK dict x) = entryAt d dict := by
  intro dict
  unfold kwStep
  by_cases hany : dict.any (fun y => y.vector_id == x.vector_id)
  · rw [if_pos hany]
    apply entryAt_map_preserve
    · intro y
      by_cases hy : y.vector_id = x.vector_id <;> simp [hy]
    · intro y hy
      rw [if_neg (by simp only [beq_iff_eq]; rw [hy]; exact fun he => hx he.symm; )]
  · rw [if_neg hany]
    exact entryAt_append_single d _ hx dict

theorem entryAt_kwStep_match (alpha maxK : ℚ) (d : Nat) (x : SResult)
    (hx : x.vector_id = d) (e : CResult) :
    ∀ dict, entryAt d dict = some e →
      entryAt d (kwStep alpha maxK dict x) =
        some { e with combined_score := e.combined_score + (1 - alpha) * (x.score / maxK) } := by
  intro dict hfind
  have hmem : e ∈ dict := List.mem_of_find?_eq_some hfind
  have hpred : e.vector_id = d := by
    have := List.find?_some hfind
    simpa using this
  have hany : dict.any (fun y => y.vector_id == x.vector_id) = true := by
    rw [List.any_eq_true]
    exact ⟨e, hmem, by simp [hpred, hx]⟩
  unfold kwStep
  rw [if_pos hany]
  have := entryAt_map_update
    (fun y => if y.vector_id == x.vector_id then
      { y with combined_score := y.combined_score + (1 - alpha) * (x.score / maxK) } else y)
    (by
      intro y
      by_cases hy : y.vector_id = x.vector_id <;> simp [hy])
    d dict e hfind
  rw [this]
  simp [hpred, hx]

theorem entryAt_kwPass_nomatch (alpha maxK : ℚ) (d : Nat) :
    ∀ (kws : List SResult) (dict : List CResult),
      (∀ x ∈ kws, x.vector_id ≠ d) →
      entryAt d (kws.foldl (kwStep alpha maxK) dict) = entryAt d dict := by
  intro kws
  induction kws with
  | nil => intro dict _; rfl
  | cons x xs ih =>
    intro dict hne
    simp only [List.foldl_cons]
    rw [ih _ (fun y hy => hne y (by simp [hy]))]
    exact entryAt_kwStep_nomatch alpha maxK d x (hne x (by simp)) dict

theorem find?_of_nodup_ids :
    ∀ (sem : List SResult) (r : SResult), r ∈ sem →
      (sem.map (·.vector_id)).Nodup →
      sem.find? (fun x => x.vector_id == r.vector_id) = some r := by
  intro sem
  induction sem with
  | nil => intro r hr; simp at hr
  | cons a t ih =>
    intro r hr hnd
    simp only [List.map_cons, List.nodup_cons, List.mem_map] at hnd
    by_cases ha : a.vector_id = r.vector_id
    · have : r = a := by
        rcases List.mem_cons.mp hr with h | h
        · exact h
        · exact absurd ⟨r, h, ha.symm⟩ hnd.1
      subst this
      simp [List.find?]
    · have hrt : r ∈ t := by
        rcases List.mem_cons.mp hr with h | h
        · exact absurd (congrArg (·.vector_id) h.symm) ha
        · exact h
      rw [List.find?_cons_of_neg _ (by simp [ha])]
      exact ih r hrt hnd.2

end Retriever

/-- C8: in hybrid retrieval, `_combine_results` scores follow
`combined = alpha * (semantic / max_semantic) + (1 - alpha) * (keyword / max_keyword)`;
for `alpha = 0.5` a document achieving the maximum score in both result sets
has combined score exactly `1`, and the returned list is sorted by combined
score in descending order. -/
theorem hybrid_combined_score (semantic keyword : List Retriever.SResult) (alpha : ℚ)
    (hndS : (semantic.map (·.vector_id)).Nodup)
    (hndK : (keyword.map (·.vector_id)).Nodup)
    (r q : Retriever.SResult) (hr : r ∈ semantic) (hq : q ∈ keyword)
    (hid : q.vector_id = r.vector_id) :
    (Retriever.combineResults semantic keyword alpha).Pairwise Retriever.cLe ∧
    (∃ e ∈ Retriever.combineResults semantic keyword alpha,
       e.vector_id = r.vector_id ∧
       e.combined_score =
         alpha * (r.score / Retriever.pyMax (semantic.map (·.score)))
           + (1 - alpha) * (q.score / Retriever.pyMax (keyword.map (·.score)))) ∧
    (alpha = 1/2 → r.score = Retriever.pyMax (semantic.map (·.score)) →
     q.score = Retriever.pyMax (keyword.map (·.score)) →
     0 < Retriever.pyMax (semantic.map (·.score)) →
     0 < Retriever.pyMax (keyword.map (·.score)) →
     ∃ e ∈ Retriever.combineResults semantic keyword alpha,
       e.vector_id = r.vector_id ∧ e.combined_score = 1) := by
  have hmain : ∃ e ∈ Retriever.combineResults semantic keyword alpha,
      e.vector_id = r.vector_id ∧
      e.combined_score =
        alpha * (r.score / Retriever.pyMax (semantic.map (·.score)))
          + (1 - alpha) * (q.score / Retriever.pyMax (keyword.map (·.score))) := by
    obtain ⟨l1, l2, hkw⟩ := List.append_of_mem hq
    subst hkw
    have hp := List.pairwise_append.mp (by
      simpa only [List.map_append] using hndK)
    have hl1 : ∀ x ∈ l1, x.vector_id ≠ r.vector_id := by
      intro x hx heq
      exact (hp.2.2 x.vector_id (List.mem_map.mpr ⟨x, hx, rfl⟩) q.vector_id (by simp))
        (by rw [heq, hid])
    have hl2 : ∀ x ∈ l2, x.vector_id ≠ r.vector_id := by
      intro x hx heq
      have hqp := (List.pairwise_cons.mp (by simpa only [List.map_cons] using hp.2.1)).1
      exact (hqp x.vector_id (List.mem_map.mpr ⟨x, hx, rfl⟩)) (by rw [heq, hid])
    have hd1 : semantic.foldl
        (fun acc s => Retriever.dictSet acc
          (Retriever.mkSem alpha (Retriever.pyMax (semantic.map (·.score))) s)) []
        = semantic.map (Retriever.mkSem alpha (Retriever.pyMax (semantic.map (·.score)))) := by
      rw [Retriever.pass1_eq _ _ semantic [] (by intro a ha x hx; simp at hx) hndS]
      simp
    have hfind1 : Retriever.entryAt r.vector_id
        (semantic.map (Retriever.mkSem alpha (Retriever.pyMax (semantic.map (·.score)))))
        = some (Retriever.mkSem alpha (Retriever.pyMax (semantic.map (·.score))) r) := by
      unfold Retriever.entryAt
      rw [List.find?_map]
      have hcomp : ((fun x => x.vector_id == r.vector_id) ∘
          (Retriever.mkSem alpha (Retriever.pyMax (semantic.map (·.score)))))
          = fun y => y.vector_id == r.vector_id := rfl
      rw [hcomp, Retriever.find?_of_nodup_ids semantic r hr hndS]
      rfl
    have hfold : Retriever.combineResults semantic (l1 ++ q :: l2) alpha
        = List.insertionSort Retriever.cLe
            ((l2.foldl (Retriever.kwStep alpha (Retriever.pyMax ((l1 ++ q :: l2).map (·.score))))
              (Retriever.kwStep alpha (Retriever.pyMax ((l1 ++ q :: l2).map (·.score)))
                (l1.foldl (Retriever.kwStep alpha (Retriever.pyMax ((l1 ++ q :: l2).map (·.score))))
                  (semantic.foldl
                    (fun acc s => Retriever.dictSet acc
                      (Retriever.mkSem alpha (Retriever.pyMax (semantic.map (·.score))) s)) []))
                q))) := by
      rw [show Retriever.combineResults semantic (l1 ++ q :: l2) alpha
            = List.insertionSort Retriever.cLe
                ((l1 ++ q :: l2).foldl
                  (Retriever.kwStep alpha (Retriever.pyMax ((l1 ++ q :: l2).map (·.score))))
                  (semantic.foldl
                    (fun acc s => Retriever.dictSet acc
                      (Retriever.mkSem alpha (Retriever.pyMax (semantic.map (·.score))) s)) []))
          from rfl]
      rw [List.foldl_append, List.foldl_cons]
    rw [hfold]
    have h1 : Retriever.entryAt r.vector_id
        (l1.foldl (Retriever.kwStep alpha (Retriever.pyMax ((l1 ++ q :: l2).map (·.score))))
          (semantic.foldl
            (fun acc s => Retriever.dictSet acc
              (Retriever.mkSem alpha (Retriever.pyMax (semantic.map (·.score))) s)) []))
        = some (Retriever.mkSem alpha (Retriever.pyMax (semantic.map (·.score))) r) := by
      rw [Retriever.entryAt_kwPass_nomatch _ _ _ l1 _ hl1, hd1]
      exact hfind1
    have h2 := Retriever.entryAt_kwStep_match alpha
      (Retriever.pyMax ((l1 ++ q :: l2).map (·.score))) r.vector_id q hid _ _ h1
    have h3 : Retriever.entryAt r.vector_id
        (l2.foldl (Retriever.kwStep alpha (Retriever.pyMax ((l1 ++ q :: l2).map (·.score))))
          (Retriever.kwStep alpha (Retriever.pyMax ((l1 ++ q :: l2).map (·.score)))
            (l1.foldl (Retriever.kwStep alpha (Retriever.pyMax ((l1 ++ q :: l2).map (·.score))))
              (semantic.foldl
                (fun acc s => Retriever.dictSet acc
                  (Retriever.mkSem alpha (Retriever.pyMax (semantic.map (·.score))) s)) []))
            q)) = some
          { Retriever.mkSem alpha (Retriever.pyMax (semantic.map (·.score))) r with
            combined_score :=
              (Retriever.mkSem alpha (Retriever.pyMax (semantic.map (·.score))) r).combined_score
                + (1 - alpha) * (q.score / Retriever.pyMax ((l1 ++ q :: l2).map (·.score))) } := by
      rw [Retriever.entryAt_kwPass_nomatch _ _ _ l2 _ hl2]
      exact h2
    refine ⟨{ Retriever.mkSem alpha (Retriever.pyMax (semantic.map (·.score))) r with
        combined_score :=
          (Retriever.mkSem alpha (Retriever.pyMax (semantic.map (·.score))) r).combined_score
            + (1 - alpha) * (q.score / Retriever.pyMax ((l1 ++ q :: l2).map (·.score))) },
      ?_, rfl, rfl⟩
    exact (List.perm_insertionSort Retriever.cLe _).mem_iff.mpr
      (List.mem_of_find?_eq_some h3)
  refine ⟨?_, hmain, ?_⟩
  · exact List.sorted_insertionSort Retriever.cLe _
  · intro ha hrs hqs hS hK
    obtain ⟨e, hemem, heid, hesc⟩ := hmain
    refine ⟨e, hemem, heid, ?_⟩
    rw [hesc, ← hrs, ← hqs]
    rw [hrs, div_self (ne_of_gt hS), hqs, div_self (ne_of_gt hK), ha]
    norm_num

/-- Witness for C8: two semantic and two keyword results with document 1
achieving the maximum in both sets; its combined score is exactly `1`. -/
theorem hybrid_combined_score_witness :
    ∃ e ∈ Retriever.combineResults [⟨1, 4⟩, ⟨2, 2⟩] [⟨1, 3⟩, ⟨3, 1⟩] (1/2),
      e.vector_id = 1 ∧ e.combined_score = 1 :=
  (hybrid_combined_score [⟨1, 4⟩, ⟨2, 2⟩] [⟨1, 3⟩, ⟨3, 1⟩] (1/2)
    (by decide) (by decide) ⟨1, 4⟩ ⟨1, 3⟩ (by decide) (by decide) rfl).2.2
    rfl (by norm_num [Retriever.pyMax]) (by norm_num [Retriever.pyMax])
    (by norm_num [Retriever.pyMax]) (by norm_num [Retriever.pyMax])

namespace TextChunker

/-- `core/parser/chunker.py`'s `ChunkingStrategy` enum. -/
inductive ChunkingStrategy | SENTENCE | PARAGRAPH | MIXED | SMART | LEARNED
deriving DecidableEq, Repr

/-- The chunker's external dependencies.  `nfkc` and `unescape` are the
boundary library calls `unicodedata.normalize('NFKC', ·)` and
`html.unescape`.  `splitSentences` is modelled from the spec: the source
calls `re.split` on `self._sentence_patterns[language]`, but
`_init_patterns` (and `detect_language`, `_load_translator`,
`_load_spacy_model`, `_learned_chunking`) are referenced by
`core/parser/chunker.py` without being defined anywhere in the tree, so
the language-specific sentence-boundary split, the language detector, the
optional learned chunker and the optional translator are taken as
parameters, faithful to the spec's description of them. -/
structure ChunkerModel where
  nfkc : Str → Str
  unescape : Str → Str
  splitSentences : Str → Str → List Str
  detectLanguage : Str → Str
  learningModel : Option (Str → Nat → Str → List Str) := none
  translator : Option (Str → Str → Str → Str) := none

/-- `re.sub(r'\s+', ' ', s)`: collapse every maximal whitespace run to a
single space. -/
def collapseWsGo (inRun : Bool) : Str → Str
  | [] => []
  | c :: rest =>
    if wsChar c then
      if inRun then collapseWsGo true rest else ' ' :: collapseWsGo true rest
    else c :: collapseWsGo false rest

def collapseWs (s : Str) : Str := collapseWsGo false s

/-- `TextChunker._preprocess_text`: NFKC normalization, optional whitespace
collapsing and stripping, then HTML-entity unescaping. -/
def preprocessText (M : ChunkerModel) (text : Str) (preserveFormatting : Bool) : Str :=
  let t := M.nfkc text
  let t := if preserveFormatting then t else pyStrip (collapseWs t)
  M.unescape t

/-- `TextChunker._force_chunk`: fixed-size slices
`[text[i:i+n] for i in range(0, len(text), n)]`.  Fuel (the string's
length, enough for `n ≥ 1`) keeps the recursion structural. -/
def forceChunkGo : Nat → Str → Nat → List Str
  | _, [], _ => []
  | 0, s, _ => [s]
  | fuel + 1, s, n => s.take n :: forceChunkGo fuel (s.drop n) n

def forceChunk (s : Str) (n : Nat) : List Str := forceChunkGo s.length s n

/-- The sum of the pieces' lengths. -/
def sumLen (l : List Str) : Nat := (l.map List.length).sum

/-- The accumulation loop shared verbatim by `_chunk_by_sentences`
(separator `" "`) and `_chunk_by_paragraphs` (separator `"\n\n"`): pieces
whose joined counter fits `chunk_size` accumulate into `current_chunk`
(the counter adds each piece's length plus one); a piece that does not fit
flushes the current chunk and either force-splits an oversized piece
(emitting all but the last slice) or starts a fresh chunk. -/
def buildChunksGo (sep : Str) (chunkSize : Nat) :
    List Str → List Str → Nat → List Str
  | [], cur, _ => if cur.isEmpty then [] else [joinSep sep cur]
  | p :: rest, cur, cnt =>
    if cnt + p.length ≤ chunkSize then
      buildChunksGo sep chunkSize rest (cur ++ [p]) (cnt + p.length + 1)
    else
      (if cur.isEmpty then [] else [joinSep sep cur]) ++
      (if chunkSize < p.length then
        match (forceChunk p chunkSize).getLast? with
        | some last =>
          (forceChunk p chunkSize).dropLast ++
            buildChunksGo sep chunkSize rest [last] last.length
        | none => buildChunksGo sep chunkSize rest [] 0
      else
        buildChunksGo sep chunkSize rest [p] p.length)

/-- `TextChunker._chunk_by_sentences`: split into sentences by the
language's pattern, keep the non-blank ones, accumulate with a one-space
join. -/
def chunkBySentences (M : ChunkerModel) (text : Str) (chunkSize : Nat)
    (language : Str) : List Str :=
  buildChunksGo [' '] chunkSize
    ((M.splitSentences language text).filter (fun s => !(pyStrip s).isEmpty)) [] 0

/-- `TextChunker._chunk_by_paragraphs`: split on blank lines, keep the
non-blank paragraphs, accumulate with a `"\n\n"` join. -/
def chunkByParagraphs (text : Str) (chunkSize : Nat) : List Str :=
  buildChunksGo ['\n', '\n'] chunkSize
    ((splitNN [] text).filter (fun p => !(pyStrip p).isEmpty)) [] 0

/-- `TextChunker._mixed_chunking`: paragraphs at or under the target length
are atomic chunks; longer ones are sentence-split.  (`text.split('\n\n')`
here is unfiltered, as in the source.) -/
def mixedChunking (M : ChunkerModel) (text : Str) (chunkSize : Nat)
    (language : Str) : List Str :=
  (splitNN [] text).flatMap (fun para =>
    if para.length ≤ chunkSize then [para]
    else chunkBySentences M para chunkSize language)

/-- `str(strategy)` as interpolated into the `ValueError` message. -/
def strategyName : ChunkingStrategy → Str
  | .SENTENCE => "ChunkingStrategy.SENTENCE".toList
  | .PARAGRAPH => "ChunkingStrategy.PARAGRAPH".toList
  | .MIXED => "ChunkingStrategy.MIXED".toList
  | .SMART => "ChunkingStrategy.SMART".toList
  | .LEARNED => "ChunkingStrategy.LEARNED".toList

/-- `TextChunker._apply_chunking_strategy`: dispatch SENTENCE / PARAGRAPH /
MIXED; every other strategy raises
`ValueError(f"Unsupported strategy: {strategy}")`. -/
def applyChunkingStrategy (M : ChunkerModel) (text : Str) (chunkSize : Nat)
    (language : Str) (strategy : ChunkingStrategy) : Except Str (List Str) :=
  match strategy with
  | .SENTENCE => .ok (chunkBySentences M text chunkSize language)
  | .PARAGRAPH => .ok (chunkByParagraphs text chunkSize)
  | .MIXED => .ok (mixedChunking M text chunkSize language)
  | s => .error ("Unsupported strategy: ".toList ++ strategyName s)

/-- `TextChunker._merge_chunks_aggressive`: greedily concatenate while the
size check (which does not count the joining space) passes; on overflow
flush and restart from the chunk, discarding it when shorter than
`min_size`. -/
def mergeChunksAggressiveGo (maxSize minSize : Nat) : List Str → Str → List Str
  | [], cur => if cur.isEmpty then [] else [cur]
  | c :: rest, cur =>
    if cur.length + c.length ≤ maxSize then
      mergeChunksAggressiveGo maxSize minSize rest (pyStrip (cur ++ ' ' :: c))
    else
      (if cur.isEmpty then [] else [cur]) ++
        mergeChunksAggressiveGo maxSize minSize rest
          (if minSize ≤ c.length then c else [])

def mergeChunksAggressive (chunks : List Str) (maxSize minSize : Nat) : List Str :=
  mergeChunksAggressiveGo maxSize minSize chunks []

/-- `TextChunker._merge_chunks_conservative`: merge a chunk into the
previous one only while that one is still below `min_size` and the size
check (again not counting the joining space) passes.  The accumulator is
kept reversed so the last merged chunk is at its head. -/
def mergeChunksConservativeGo (maxSize minSize : Nat) : List Str → List Str → List Str
  | [], revMerged => revMerged.reverse
  | c :: rest, [] => mergeChunksConservativeGo maxSize minSize rest [c]
  | c :: rest, last :: others =>
    if last.length + c.length ≤ maxSize ∧ last.length < minSize then
      mergeChunksConservativeGo maxSize minSize rest ((last ++ ' ' :: c) :: others)
    else
      mergeChunksConservativeGo maxSize minSize rest (c :: last :: others)

def mergeChunksConservative (chunks : List Str) (maxSize minSize : Nat) : List Str :=
  mergeChunksConservativeGo maxSize minSize chunks []

/-- `TextChunker._postprocess_chunks`. -/
def postprocessChunks (chunks : List Str) (chunkSize : Nat) (mergeStrategy : Str)
    (minChunkSize : Nat) : List Str :=
  if mergeStrategy = "aggressive".toList then
    mergeChunksAggressive chunks chunkSize minChunkSize
  else
    mergeChunksConservative chunks chunkSize minChunkSize

/-- `chunk_size or self.max_length`, with Python's falsy `or` (so `0` also
falls back to `max_length`). -/
def resolveChunkSize (chunkSize : Option Nat) (maxLength : Nat) : Nat :=
  match chunkSize with
  | some n => if n = 0 then maxLength else n
  | none => maxLength

/-- `language or self.detect_language(text)`, with Python's falsy `or` (an
empty string also falls back to detection). -/
def resolveLanguage (M : ChunkerModel) (language : Option Str) (t : Str) : Str :=
  match language with
  | some l => if l.isEmpty then M.detectLanguage t else l
  | none => M.detectLanguage t

/-- The strategy dispatch of `TextChunker.chunk`: the learned path is taken
only when the strategy is LEARNED *and* a learning model is configured;
everything else goes to `_apply_chunking_strategy` (which raises on
LEARNED/SMART). -/
def chunkCore (M : ChunkerModel) (t : Str) (cs : Nat) (lang : Str) :
    ChunkingStrategy → Except Str (List Str)
  | .LEARNED =>
    match M.learningModel with
    | some f => .ok (f t cs lang)
    | none => applyChunkingStrategy M t cs lang .LEARNED
  | s => applyChunkingStrategy M t cs lang s

/-- `TextChunker.chunk`: preprocess, return `[]` for blank input, chunk by
the dispatched strategy, post-merge, and optionally translate (when both a
target language and a translator are present). -/
def chunk (M : ChunkerModel) (text : Str) (chunkSize : Option Nat)
    (language : Option Str) (strategy : ChunkingStrategy)
    (preserveFormatting : Bool) (mergeStrategy : Str) (minChunkSize : Nat)
    (targetLanguage : Option Str) (maxLength : Nat) : Except Str (List Str) :=
  if (pyStrip (preprocessText M text preserveFormatting)).isEmpty then .ok []
  else
    (chunkCore M (preprocessText M text preserveFormatting)
        (resolveChunkSize chunkSize maxLength)
        (resolveLanguage M language (preprocessText M text preserveFormatting))
        strategy).map (fun cks =>
      match targetLanguage, M.translator with
      | some tl, some tr =>
        (postprocessChunks cks (resolveChunkSize chunkSize maxLength)
          mergeStrategy minChunkSize).map (fun c =>
            tr c (resolveLanguage M language (preprocessText M text preserveFormatting)) tl)
      | _, _ =>
        postprocessChunks cks (resolveChunkSize chunkSize maxLength)
          mergeStrategy minChunkSize)

end TextChunker

/-- A concrete chunker environment for closed evaluations: identity boundary
normalizers (NFKC and `html.unescape` are the identity on the ASCII,
entity-free inputs used), a trivial sentence splitter, no learning model,
no translator. -/
def trivialChunkerModel : TextChunker.ChunkerModel where
  nfkc := id
  unescape := id
  splitSentences := fun _ t => [t]
  detectLanguage := fun _ => "en".toList
  learningModel := none
  translator := none

namespace TextChunker

theorem buildChunksGo_nil (sep : Str) (C : Nat) (cur : List Str) (cnt : Nat) :
    buildChunksGo sep C [] cur cnt = if cur.isEmpty then [] else [joinSep sep cur] := rfl

theorem buildChunksGo_cons (sep : Str) (C : Nat) (p : Str) (rest cur : List Str) (cnt : Nat) :
    buildChunksGo sep C (p :: rest) cur cnt =
      if cnt + p.length ≤ C then
        buildChunksGo sep C rest (cur ++ [p]) (cnt + p.length + 1)
      else
        (if cur.isEmpty then [] else [joinSep sep cur]) ++
        (if C < p.length then
          match (forceChunk p C).getLast? with
          | some last =>
            (forceChunk p C).dropLast ++ buildChunksGo sep C rest [last] last.length
          | none => buildChunksGo sep C rest [] 0
        else
          buildChunksGo sep C rest [p] p.length) := rfl

theorem joinSep_length (sep : Str) :
    ∀ pieces : List Str, pieces ≠ [] →
      (joinSep sep pieces).length = sumLen pieces + sep.length * (pieces.length - 1) := by
  intro pieces
  induction pieces with
  | nil => intro h; exact absurd rfl h
  | cons p rest ih =>
    intro _
    match rest with
    | [] => simp [joinSep, sumLen]
    | q :: rest' =>
      rw [joinSep]
      have hr := ih (by simp)
      simp only [List.length_append, hr, sumLen, List.map_cons, List.sum_cons,
        List.length_cons, Nat.add_sub_cancel]
      ring

theorem length_le_sumLen :
    ∀ l : List Str, (∀ p ∈ l, 1 ≤ p.length) → l.length ≤ sumLen l := by
  intro l
  induction l with
  | nil => intro _; simp [sumLen]
  | cons p rest ih =>
    intro h
    have h1 := h p (by simp)
    have h2 := ih (fun q hq => h q (by simp [hq]))
    simp only [sumLen, List.map_cons, List.sum_cons, List.length_cons] at *
    omega

theorem sumLen_append_singleton (l : List Str) (x : Str) :
    sumLen (l ++ [x]) = sumLen l + x.length := by
  simp [sumLen]

theorem forceChunkGo_mem (n : Nat) (hn : 1 ≤ n) :
    ∀ fuel (s : Str), s.length ≤ fuel →
      ∀ p ∈ forceChunkGo fuel s n, p.length ≤ n ∧ 1 ≤ p.length := by
  intro fuel
  induction fuel with
  | zero =>
    intro s hs p hp
    have : s = [] := List.length_eq_zero.mp (Nat.le_zero.mp hs)
    subst this
    simp [forceChunkGo] at hp
  | succ m ih =>
    intro s hs p hp
    match s with
    | [] => simp [forceChunkGo] at hp
    | c :: rest =>
      rw [show forceChunkGo (m + 1) (c :: rest) n
            = (c :: rest).take n :: forceChunkGo m ((c :: rest).drop n) n from rfl] at hp
      rcases List.mem_cons.mp hp with h | h
      · subst h
        constructor
        · simp only [List.length_take]
          omega
        · simp only [List.length_take, List.length_cons]
          omega
      · exact ih ((c :: rest).drop n)
          (by simp only [List.length_drop, List.length_cons] at *; omega) p h

theorem forceChunk_mem (s : Str) (n : Nat) (hn : 1 ≤ n) :
    ∀ p ∈ forceChunk s n, p.length ≤ n ∧ 1 ≤ p.length :=
  forceChunkGo_mem n hn s.length s (le_refl _)

theorem forceChunkGo_count (n : Nat) (hn : 1 ≤ n) :
    ∀ fuel (s : Str), s.length ≤ fuel →
      (forceChunkGo fuel s n).length = (s.length + n - 1) / n := by
  intro fuel
  induction fuel with
  | zero =>
    intro s hs
    have : s = [] := List.length_eq_zero.mp (Nat.le_zero.mp hs)
    subst this
    simp only [forceChunkGo, List.length_nil]
    rw [Nat.div_eq_of_lt (by omega)]
  | succ m ih =>
    intro s hs
    match s with
    | [] =>
      simp only [forceChunkGo, List.length_nil]
      rw [Nat.div_eq_of_lt (by omega)]
    | c :: rest =>
      have hs' : rest.length + 1 ≤ m + 1 := by simpa using hs
      rw [show forceChunkGo (m + 1) (c :: rest) n
            = (c :: rest).take n :: forceChunkGo m ((c :: rest).drop n) n from rfl]
      rw [List.length_cons,
        ih ((c :: rest).drop n)
          (by simp only [List.length_drop, List.length_cons]; omega)]
      simp only [List.length_drop, List.length_cons]
      rw [show rest.length + 1 + n - 1 = (rest.length + 1 - 1) + n by omega,
        Nat.add_div_right _ (by omega), Nat.add_sub_cancel]
      congr 1
      by_cases hle : rest.length + 1 ≤ n
      · rw [Nat.sub_eq_zero_of_le hle]
        rw [Nat.div_eq_of_lt (by omega), Nat.div_eq_of_lt (by omega)]
      · rw [show rest.length + 1 - n + n - 1 = rest.length by omega]

theorem forceChunk_count (s : Str) (n : Nat) (hn : 1 ≤ n) :
    (forceChunk s n).length = (s.length + n - 1) / n :=
  forceChunkGo_count n hn s.length s (le_refl _)

end TextChunker

namespace TextChunker

/-- The length of a flushed chunk: with the loop invariant
`sumLen cur + |cur| ≤ C + 2` and nonempty pieces, the joined chunk obeys
`2·len ≤ (|sep| + 1)·C + 2` for the separators used (one space, or two
newline characters). -/
theorem flush_bound (sep : Str) (C : Nat) (hd : sep.length = 1 ∨ sep.length = 2)
    (cur : List Str) (hne : cur ≠ [])
    (h2 : sumLen cur + cur.length ≤ C + 2)
    (h3 : ∀ p ∈ cur, 1 ≤ p.length) :
    2 * (joinSep sep cur).length ≤ (sep.length + 1) * C + 2 := by
  rw [joinSep_length sep cur hne]
  have hk : cur.length ≤ sumLen cur := length_le_sumLen cur h3
  have hk1 : 1 ≤ cur.length := by
    cases cur with
    | nil => exact absurd rfl hne
    | cons a t => simp
  rcases hd with hd | hd <;> rw [hd] <;> omega

/-- The loop invariant of `buildChunksGo`, threaded through every state the
loop can reach, bounds every emitted chunk. -/
theorem buildChunksGo_bound (sep : Str) (C : Nat) (hC : 1 ≤ C)
    (hd : sep.length = 1 ∨ sep.length = 2) :
    ∀ (pieces cur : List Str) (cnt : Nat),
      (∀ p ∈ pieces, 1 ≤ p.length) →
      (cur = [] ∨ (sumLen cur + cur.length ≤ cnt + 1 ∧ sumLen cur + cur.length ≤ C + 2 ∧
        ∀ p ∈ cur, 1 ≤ p.length)) →
      ∀ c ∈ buildChunksGo sep C pieces cur cnt, 2 * c.length ≤ (sep.length + 1) * C + 2 := by
  intro pieces
  induction pieces with
  | nil =>
    intro cur cnt _ hinv c hc
    rw [buildChunksGo_nil] at hc
    rcases hinv with h | ⟨_, h2, h3⟩
    · subst h; simp at hc
    · cases cur with
      | nil => simp at hc
      | cons a t =>
        simp only [List.isEmpty_cons, ite_false, List.mem_singleton,
          Bool.false_eq_true] at hc
        subst hc
        exact flush_bound sep C hd (a :: t) (by simp) h2 h3
  | cons p rest ih =>
    intro cur cnt hp hinv c hc
    have hp1 : 1 ≤ p.length := hp p (by simp)
    have hprest : ∀ q ∈ rest, 1 ≤ q.length := fun q hq => hp q (by simp [hq])
    rw [buildChunksGo_cons] at hc
    by_cases hfit : cnt + p.length ≤ C
    · rw [if_pos hfit] at hc
      refine ih (cur ++ [p]) (cnt + p.length + 1) hprest (Or.inr ?_) c hc
      rcases hinv with h | ⟨h1, h2, h3⟩
      · subst h
        refine ⟨?_, ?_, ?_⟩
        · simp only [List.nil_append, sumLen, List.map_cons, List.map_nil,
            List.sum_cons, List.sum_nil, List.length_cons, List.length_nil]
          omega
        · simp only [List.nil_append, sumLen, List.map_cons, List.map_nil,
            List.sum_cons, List.sum_nil, List.length_cons, List.length_nil]
          omega
        · intro q hq
          simp only [List.nil_append, List.mem_singleton] at hq
          subst hq
          exact hp1
      · refine ⟨?_, ?_, ?_⟩
        · rw [sumLen_append_singleton, List.length_append]
          simp only [List.length_cons, List.length_nil]
          omega
        · rw [sumLen_append_singleton, List.length_append]
          simp only [List.length_cons, List.length_nil]
          omega
        · intro q hq
          rcases List.mem_append.mp hq with h | h
          · exact h3 q h
          · simp only [List.mem_singleton] at h
            subst h
            exact hp1
    · rw [if_neg hfit] at hc
      rcases List.mem_append.mp hc with hflush | hbranch
      · rcases hinv with h | ⟨_, h2, h3⟩
        · subst h; simp at hflush
        · cases cur with
          | nil => simp at hflush
          | cons a t =>
            simp only [List.isEmpty_cons, ite_false, List.mem_singleton,
              Bool.false_eq_true] at hflush
            subst hflush
            exact flush_bound sep C hd (a :: t) (by simp) h2 h3
      · by_cases hbig : C < p.length
        · rw [if_pos hbig] at hbranch
          cases hlast : (forceChunk p C).getLast? with
          | some last =>
            rw [hlast] at hbranch
            rcases List.mem_append.mp hbranch with hdrop | hrec
            · have hmem : c ∈ forceChunk p C :=
                (List.dropLast_sublist (forceChunk p C)).subset hdrop
              have := (forceChunk_mem p C hC c hmem).1
              rcases hd with hd | hd <;> rw [hd] <;> omega
            · have hlmem : last ∈ forceChunk p C := List.mem_of_mem_getLast? hlast
              have hlb := forceChunk_mem p C hC last hlmem
              refine ih [last] last.length hprest (Or.inr ⟨?_, ?_, ?_⟩) c hrec
              · simp [sumLen]
              · simp only [sumLen, List.map_cons, List.map_nil, List.sum_cons,
                  List.sum_nil, List.length_cons, List.length_nil]
                omega
              · intro q hq
                simp only [List.mem_singleton] at hq
                subst hq
                exact hlb.2
          | none =>
            rw [hlast] at hbranch
            exact ih [] 0 hprest (Or.inl rfl) c hbranch
        · rw [if_neg hbig] at hbranch
          push_neg at hbig
          refine ih [p] p.length hprest (Or.inr ⟨?_, ?_, ?_⟩) c hbranch
          · simp [sumLen]
          · simp only [sumLen, List.map_cons, List.map_nil, List.sum_cons,
              List.sum_nil, List.length_cons, List.length_nil]
            omega
          · intro q hq
            simp only [List.mem_singleton] at hq
            subst hq
            exact hp1

end TextChunker

namespace TextChunker

theorem filter_piece_nonempty (s : Str) (h : (!(pyStrip s).isEmpty) = true) :
    1 ≤ s.length := by
  cases s with
  | nil => simp [pyStrip] at h
  | cons a t => simp

theorem chunkBySentences_bound (M : ChunkerModel) (text : Str) (C : Nat)
    (lang : Str) (hC : 1 ≤ C) :
    ∀ c ∈ chunkBySentences M text C lang, c.length ≤ C + 1 := by
  intro c hc
  have := buildChunksGo_bound [' '] C hC (by simp)
    ((M.splitSentences lang text).filter (fun s => !(pyStrip s).isEmpty)) [] 0
    (fun p hp => filter_piece_nonempty p (List.mem_filter.mp hp).2)
    (Or.inl rfl) c hc
  simp only [List.length_cons, List.length_nil] at this
  omega

theorem chunkByParagraphs_bound (text : Str) (C : Nat) (hC : 1 ≤ C) :
    ∀ c ∈ chunkByParagraphs text C, 2 * c.length ≤ 3 * C + 2 := by
  intro c hc
  have := buildChunksGo_bound ['\n', '\n'] C hC (by simp)
    ((splitNN [] text).filter (fun p => !(pyStrip p).isEmpty)) [] 0
    (fun p hp => filter_piece_nonempty p (List.mem_filter.mp hp).2)
    (Or.inl rfl) c hc
  simp only [List.length_cons, List.length_nil] at this
  omega

theorem mixedChunking_bound (M : ChunkerModel) (text : Str) (C : Nat)
    (lang : Str) (hC : 1 ≤ C) :
    ∀ c ∈ mixedChunking M text C lang, c.length ≤ C + 1 := by
  intro c hc
  unfold mixedChunking at hc
  obtain ⟨para, _, hcp⟩ := List.mem_flatMap.mp hc
  by_cases hlen : para.length ≤ C
  · rw [if_pos hlen] at hcp
    simp only [List.mem_singleton] at hcp
    subst hcp
    omega
  · rw [if_neg hlen] at hcp
    exact chunkBySentences_bound M para C lang hC c hcp

theorem mergeChunksAggressiveGo_bound (maxS minS B : Nat) (hB : maxS + 1 ≤ B) :
    ∀ (chunks : List Str) (cur : Str),
      (∀ c ∈ chunks, c.length ≤ B) → cur.length ≤ B →
      ∀ c ∈ mergeChunksAggressiveGo maxS minS chunks cur, c.length ≤ B := by
  intro chunks
  induction chunks with
  | nil =>
    intro cur _ hcur c hc
    unfold mergeChunksAggressiveGo at hc
    by_cases he : cur.isEmpty
    · rw [if_pos he] at hc; simp at hc
    · rw [if_neg he] at hc
      simp only [List.mem_singleton] at hc
      subst hc
      exact hcur
  | cons x rest ih =>
    intro cur hin hcur c hc
    have hx : x.length ≤ B := hin x (by simp)
    have hrest : ∀ c ∈ rest, c.length ≤ B := fun c h => hin c (by simp [h])
    unfold mergeChunksAggressiveGo at hc
    by_cases hfit : cur.length + x.length ≤ maxS
    · rw [if_pos hfit] at hc
      refine ih (pyStrip (cur ++ ' ' :: x)) hrest ?_ c hc
      have h1 := pyStrip_length_le (cur ++ ' ' :: x)
      simp only [List.length_append, List.length_cons] at h1
      omega
    · rw [if_neg hfit] at hc
      rcases List.mem_append.mp hc with hflush | hrec
      · by_cases he : cur.isEmpty
        · rw [if_pos he] at hflush; simp at hflush
        · rw [if_neg he] at hflush
          simp only [List.mem_singleton] at hflush
          subst hflush
          exact hcur
      · refine ih _ hrest ?_ c hrec
        by_cases hmin : minS ≤ x.length
        · rw [if_pos hmin]; exact hx
        · rw [if_neg hmin]; simp

theorem mergeChunksConservativeGo_bound (maxS minS B : Nat) (hB : maxS + 1 ≤ B) :
    ∀ (chunks revAcc : List Str),
      (∀ c ∈ chunks, c.length ≤ B) → (∀ c ∈ revAcc, c.length ≤ B) →
      ∀ c ∈ mergeChunksConservativeGo maxS minS chunks revAcc, c.length ≤ B := by
  intro chunks
  induction chunks with
  | nil =>
    intro revAcc _ hacc c hc
    unfold mergeChunksConservativeGo at hc
    exact hacc c (List.mem_reverse.mp hc)
  | cons x rest ih =>
    intro revAcc hin hacc c hc
    have hx : x.length ≤ B := hin x (by simp)
    have hrest : ∀ c ∈ rest, c.length ≤ B := fun c h => hin c (by simp [h])
    match revAcc, hacc with
    | [], _ =>
      unfold mergeChunksConservativeGo at hc
      refine ih [x] hrest ?_ c hc
      intro q hq
      simp only [List.mem_singleton] at hq
      subst hq
      exact hx
    | last :: others, hacc =>
      have hlast : last.length ≤ B := hacc last (by simp)
      have hothers : ∀ c ∈ others, c.length ≤ B := fun c h => hacc c (by simp [h])
      unfold mergeChunksConservativeGo at hc
      by_cases hcond : last.length + x.length ≤ maxS ∧ last.length < minS
      · rw [if_pos hcond] at hc
        refine ih _ hrest ?_ c hc
        intro q hq
        rcases List.mem_cons.mp hq with h | h
        · subst h
          simp only [List.length_append, List.length_cons]
          omega
        · exact hothers q h
      · rw [if_neg hcond] at hc
        refine ih _ hrest ?_ c hc
        intro q hq
        rcases List.mem_cons.mp hq with h | h
        · subst h; exact hx
        · rcases List.mem_cons.mp h with h' | h'
          · subst h'; exact hlast
          · exact hothers q h'

theorem postprocessChunks_bound (chunks : List Str) (C minCS B : Nat)
    (hB : C + 1 ≤ B) (hin : ∀ c ∈ chunks, c.length ≤ B) (ms : Str) :
    ∀ c ∈ postprocessChunks chunks C ms minCS, c.length ≤ B := by
  intro c hc
  unfold postprocessChunks at hc
  by_cases hms : ms = "aggressive".toList
  · rw [if_pos hms] at hc
    exact mergeChunksAggressiveGo_bound C minCS B hB chunks [] hin (by simp) c hc
  · rw [if_neg hms] at hc
    exact mergeChunksConservativeGo_bound C minCS B hB chunks [] hin (by simp) c hc

end TextChunker

namespace TextChunker

theorem pyStrip_eq_nil_iff (s : Str) : pyStrip s = [] ↔ ∀ c ∈ s, wsChar c := by
  unfold pyStrip
  rw [List.reverse_eq_nil_iff, List.dropWhile_eq_nil_iff]
  constructor
  · intro h c hc
    rcases List.mem_append.mp (by
        rw [List.takeWhile_append_dropWhile (p := wsChar)]
        exact hc) with hin | hin
    · exact List.mem_takeWhile_imp hin
    · exact h c (List.mem_reverse.mpr hin)
  · intro h c hc
    have : c ∈ s.dropWhile wsChar := List.mem_reverse.mp hc
    exact h c ((List.dropWhile_sublist wsChar).subset this)

theorem collapseWsGo_all_ws :
    ∀ (b : Bool) (s : Str), (∀ c ∈ s, wsChar c) →
      ∀ c ∈ collapseWsGo b s, wsChar c := by
  intro b s
  induction s generalizing b with
  | nil => intro _ c hc; simp [collapseWsGo] at hc
  | cons a t ih =>
    intro h c hc
    have ha : wsChar a := h a (by simp)
    have ht : ∀ c ∈ t, wsChar c := fun c h' => h c (by simp [h'])
    unfold collapseWsGo at hc
    rw [if_pos ha] at hc
    by_cases hb : b
    · subst hb
      simp only [if_true] at hc
      exact ih true ht c hc
    · simp only [hb, if_false, Bool.false_eq_true] at hc
      rcases List.mem_cons.mp hc with h' | h'
      · subst h'; rfl
      · exact ih true ht c h'

theorem preprocessText_blank (M : ChunkerModel)
    (hn : ∀ s, pyStrip s = [] → pyStrip (M.nfkc s) = [])
    (hu : ∀ s, pyStrip s = [] → pyStrip (M.unescape s) = [])
    (text : Str) (htext : pyStrip text = []) (pf : Bool) :
    pyStrip (preprocessText M text pf) = [] := by
  have h1 : pyStrip (M.nfkc text) = [] := hn text htext
  show pyStrip (M.unescape
    (if pf = true then M.nfkc text else pyStrip (collapseWs (M.nfkc text)))) = []
  by_cases hpf : pf
  · rw [if_pos hpf]
    exact hu (M.nfkc text) h1
  · rw [if_neg hpf]
    have h2 : pyStrip (collapseWs (M.nfkc text)) = [] := by
      rw [pyStrip_eq_nil_iff]
      exact collapseWsGo_all_ws false (M.nfkc text) ((pyStrip_eq_nil_iff _).mp h1)
    rw [h2]
    exact hu [] rfl

end TextChunker

/-- C10: for every input that is empty or whitespace-only, `chunk` returns
the empty chunk list (without raising) for every strategy, chunk size,
merge policy, formatting flag and target language — the blank-input check
precedes strategy dispatch.  The hypotheses on the model state that NFKC
normalization and HTML-entity unescaping map blank strings to blank
strings, which the boundary libraries satisfy. -/
theorem chunk_blank_input_empty (M : TextChunker.ChunkerModel)
    (hn : ∀ s, pyStrip s = [] → pyStrip (M.nfkc s) = [])
    (hu : ∀ s, pyStrip s = [] → pyStrip (M.unescape s) = [])
    (text : Str) (htext : pyStrip text = [])
    (chunkSize : Option Nat) (language : Option Str)
    (strategy : TextChunker.ChunkingStrategy) (pf : Bool) (ms : Str)
    (minCS : Nat) (tl : Option Str) (maxL : Nat) :
    TextChunker.chunk M text chunkSize language strategy pf ms minCS tl maxL
      = .ok [] := by
  unfold TextChunker.chunk
  rw [if_pos (by
    rw [TextChunker.preprocessText_blank M hn hu text htext pf]
    rfl)]

/-- Witness for C10: a whitespace-only input through the default LEARNED
strategy returns no chunks and does not raise. -/
theorem chunk_blank_input_empty_witness :
    TextChunker.chunk trivialChunkerModel "  ".toList none none .LEARNED false
      "aggressive".toList 100 none 1000 = .ok [] :=
  chunk_blank_input_empty trivialChunkerModel (fun _ h => h) (fun _ h => h)
    "  ".toList (by decide) none none .LEARNED false "aggressive".toList 100 none 1000

/-- C2: the code raises instead of falling back.  With no learning model
configured, `chunk` under the LEARNED strategy reaches
`_apply_chunking_strategy`, whose `else` branch raises
`ValueError("Unsupported strategy: ChunkingStrategy.LEARNED")` — it does
not return the MIXED strategy's chunks (shown for a concrete non-empty
input, for which MIXED succeeds). -/
theorem chunker_learned_no_model_raises :
    TextChunker.chunk trivialChunkerModel "hello world".toList none none .LEARNED false
        "aggressive".toList 100 none 1000
      = .error ("Unsupported strategy: ChunkingStrategy.LEARNED".toList) ∧
    TextChunker.chunk trivialChunkerModel "hello world".toList none none .MIXED false
        "aggressive".toList 100 none 1000
      = .ok ["hello world".toList] := by
  constructor <;> rfl

/-- C1 (amended): for `chunk_size = 1000`, the size checks of the chunk
loops and of both merge policies do not count the join separators, so
chunks can exceed 1000 characters: under the sentence and mixed strategies
(and after either merge policy) every chunk is at most 1001 characters
(one uncounted joining space); under the paragraph strategy (each join
inserts two characters but the counter adds one) every chunk is at most
1501 characters.  An input sentence or paragraph longer than 1000
characters is force-split into `ceil(len/1000)` pieces, each of length at
most 1000, as claimed. -/
theorem chunker_chunk_size_bound (M : TextChunker.ChunkerModel) (text : Str)
    (language : Option Str) (strategy : TextChunker.ChunkingStrategy)
    (hstrat : strategy = .SENTENCE ∨ strategy = .PARAGRAPH ∨ strategy = .MIXED)
    (pf : Bool) (ms : Str) (minCS : Nat) (cs : List Str)
    (hok : TextChunker.chunk M text (some 1000) language strategy pf ms minCS none 1000
      = .ok cs) :
    (∀ c ∈ cs, c.length ≤ 1501) ∧
    (strategy ≠ .PARAGRAPH → ∀ c ∈ cs, c.length ≤ 1001) ∧
    (∀ s : Str, ∀ p ∈ TextChunker.forceChunk s 1000, p.length ≤ 1000) ∧
    (∀ s : Str, (TextChunker.forceChunk s 1000).length = (s.length + 999) / 1000) := by
  have hforce1 : ∀ s : Str, ∀ p ∈ TextChunker.forceChunk s 1000, p.length ≤ 1000 :=
    fun s p hp => (TextChunker.forceChunk_mem s 1000 (by norm_num) p hp).1
  have hforce2 : ∀ s : Str, (TextChunker.forceChunk s 1000).length = (s.length + 999) / 1000 := by
    intro s
    have h := TextChunker.forceChunk_count s 1000 (by norm_num)
    simpa using h
  have key : (∀ c ∈ cs, c.length ≤ 1501) ∧
      (strategy ≠ .PARAGRAPH → ∀ c ∈ cs, c.length ≤ 1001) := by
    unfold TextChunker.chunk at hok
    by_cases hemp : (pyStrip (TextChunker.preprocessText M text pf)).isEmpty
    · rw [if_pos hemp] at hok
      injection hok with h
      subst h
      exact ⟨fun c hc => by simp at hc, fun _ c hc => by simp at hc⟩
    · rw [if_neg hemp] at hok
      rw [show TextChunker.resolveChunkSize (some 1000) 1000 = 1000 from rfl] at hok
      rcases hstrat with rfl | rfl | rfl
      · rw [show TextChunker.chunkCore M (TextChunker.preprocessText M text pf) 1000
              (TextChunker.resolveLanguage M language (TextChunker.preprocessText M text pf))
              .SENTENCE
            = .ok (TextChunker.chunkBySentences M (TextChunker.preprocessText M text pf) 1000
              (TextChunker.resolveLanguage M language (TextChunker.preprocessText M text pf)))
          from rfl] at hok
        simp only [Except.map, Except.ok.injEq] at hok
        subst hok
        have hin := TextChunker.chunkBySentences_bound M
          (TextChunker.preprocessText M text pf) 1000
          (TextChunker.resolveLanguage M language (TextChunker.preprocessText M text pf))
          (by norm_num)
        have hout := TextChunker.postprocessChunks_bound _ 1000 minCS 1001
          (by norm_num) hin ms
        exact ⟨fun c hc => by have := hout c hc; omega, fun _ => hout⟩
      · rw [show TextChunker.chunkCore M (TextChunker.preprocessText M text pf) 1000
              (TextChunker.resolveLanguage M language (TextChunker.preprocessText M text pf))
              .PARAGRAPH
            = .ok (TextChunker.chunkByParagraphs (TextChunker.preprocessText M text pf) 1000)
          from rfl] at hok
        simp only [Except.map, Except.ok.injEq] at hok
        subst hok
        have hin2 := TextChunker.chunkByParagraphs_bound
          (TextChunker.preprocessText M text pf) 1000 (by norm_num)
        have hin : ∀ c ∈ TextChunker.chunkByParagraphs
            (TextChunker.preprocessText M text pf) 1000, c.length ≤ 1501 := by
          intro c hc
          have := hin2 c hc
          omega
        have hout := TextChunker.postprocessChunks_bound _ 1000 minCS 1501
          (by norm_num) hin ms
        exact ⟨hout, fun h => absurd rfl h⟩
      · rw [show TextChunker.chunkCore M (TextChunker.preprocessText M text pf) 1000
              (TextChunker.resolveLanguage M language (TextChunker.preprocessText M text pf))
              .MIXED
            = .ok (TextChunker.mixedChunking M (TextChunker.preprocessText M text pf) 1000
              (TextChunker.resolveLanguage M language (TextChunker.preprocessText M text pf)))
          from rfl] at hok
        simp only [Except.map, Except.ok.injEq] at hok
        subst hok
        have hin := TextChunker.mixedChunking_bound M
          (TextChunker.preprocessText M text pf) 1000
          (TextChunker.resolveLanguage M language (TextChunker.preprocessText M text pf))
          (by norm_num)
        have hout := TextChunker.postprocessChunks_bound _ 1000 minCS 1001
          (by norm_num) hin ms
        exact ⟨fun c hc => by have := hout c hc; omega, fun _ => hout⟩
  exact ⟨key.1, key.2, hforce1, hforce2⟩

/-- The C1 counterexample input: a 499-character paragraph and a
500-character paragraph separated by a blank line (1001 characters in
all). -/
def chunkCounterexampleText : Str :=
  List.replicate 499 'a' ++ '\n' :: '\n' :: List.replicate 500 'b'

set_option maxRecDepth 40000 in
/-- Counterexample to C1 as stated: with `chunk_size = 1000` and the
'aggressive' merge policy, `chunk` joins the two paragraphs (their summed
length 999 passes the counter's check) into a single chunk of 1001 > 1000
characters, even though every sentence and paragraph of the input is at
most 1000 characters long, so the force-split exception cannot account for
it. -/
theorem chunker_chunk_size_bound_counterexample :
    TextChunker.chunk trivialChunkerModel chunkCounterexampleText (some 1000) none
        .PARAGRAPH true "aggressive".toList 100 none 1000
      = .ok [chunkCounterexampleText] ∧
    chunkCounterexampleText.length = 1001 ∧
    (∀ p ∈ splitNN [] chunkCounterexampleText, p.length ≤ 1000) := by
  refine ⟨by rfl, by decide, by decide⟩

/-- Witness for C1's amended theorem: a concrete short input through the
sentence strategy, with every hypothesis discharged. -/
theorem chunker_chunk_size_bound_witness :
    ("hello world".toList).length ≤ 1501 :=
  (chunker_chunk_size_bound trivialChunkerModel "hello world".toList none
    .SENTENCE (Or.inl rfl) false "aggressive".toList 100 ["hello world".toList]
    (by rfl)).1 "hello world".toList (by decide)

deriving instance DecidableEq for Except

namespace ArchiveExtractors

/-- A parsed zip member, as `zipfile` presents it to `extract_from_zip`:
name, directory flag, declared size, and the outcome of opening and
streaming it (`error` models a per-member extraction exception, `ok` the
list of chunks `_stream_read` yielded). -/
structure ZipMember where
  filename : Str
  is_dir : Bool := false
  file_size : Nat
  read : Except Str (List Str)
deriving DecidableEq, Repr

/-- `core/tools/archive_extractors.py`'s `TEXT_EXTENSIONS`. -/
def TEXT_EXTENSIONS : List Str :=
  [".txt".toList, ".md".toList, ".csv".toList, ".html".toList, ".htm".toList,
   ".xml".toList, ".pdf".toList, ".docx".toList, ".pptx".toList, ".xlsx".toList,
   ".odt".toList, ".rtf".toList, ".json".toList]

def MAX_EXTRACT_SIZE : Nat := 10 * 1024 * 1024

def MAX_TOTAL_SIZE : Nat := 100 * 1024 * 1024

def MAX_FILES : Nat := 1000

/-- `pathlib.Path(name).suffix`: the final component's extension including
the dot; none for names with no dot, a leading dot only, or a trailing
dot. -/
def pySuffix (name : Str) : Str :=
  let base := (name.reverse.takeWhile (fun c => c ≠ '/')).reverse
  let revBase := base.reverse
  let ext := revBase.takeWhile (fun c => c ≠ '.')
  if ext.length < revBase.length ∧ 0 < ext.length ∧ ext.length + 1 < base.length then
    '.' :: ext.reverse
  else []

/-- `_is_text_file`: extension allow-list membership, lower-cased. -/
def isTextFile (filename : Str) : Bool :=
  TEXT_EXTENSIONS.contains ((pySuffix filename).map Char.toLower)

/-- `ArchiveContent` (§3): concatenated text, member names included, format
metadata, non-fatal warnings. -/
structure ArchiveContent where
  text : Str
  files : List Str
  metadata : List (Str × Str)
  warnings : List Str
deriving DecidableEq, Repr

def natToStr (n : Nat) : Str := (Nat.repr n).toList

/-- `f"Maximum number of files exceeded ({MAX_FILES})"`. -/
def fileCountWarning : Str := "Maximum number of files exceeded (1000)".toList

/-- `f"Total size limit exceeded ({MAX_TOTAL_SIZE} bytes)"`. -/
def totalSizeWarning : Str := "Total size limit exceeded (104857600 bytes)".toList

/-- `f"File {file_info.filename} too large ({file_info.file_size} bytes)"`. -/
def sizeWarning (m : ZipMember) : Str :=
  "File ".toList ++ m.filename ++ " too large (".toList ++
    natToStr m.file_size ++ " bytes)".toList

/-- `f"Error extracting {file_info.filename}: {str(e)}"`. -/
def errorWarning (m : ZipMember) (e : Str) : Str :=
  "Error extracting ".toList ++ m.filename ++ ": ".toList ++ e

/-- The member loop of `extract_from_zip`, with its four accumulators
(`warnings`, `contents`, `files_list`, `total_size`); a `break` returns
the `ArchiveContent` built after the loop. -/
def extractZipGo : List ZipMember → List Str → List Str → List Str → Nat → ArchiveContent
  | [], warnings, contents, files_list, _ =>
    ⟨joinSep ['\n', '\n'] contents, files_list,
      [("format".toList, "ZIP".toList)], warnings⟩
  | m :: rest, warnings, contents, files_list, total_size =>
    if MAX_FILES ≤ files_list.length then
      ⟨joinSep ['\n', '\n'] contents, files_list,
        [("format".toList, "ZIP".toList)], warnings ++ [fileCountWarning]⟩
    else if m.is_dir || !isTextFile m.filename then
      extractZipGo rest warnings contents files_list total_size
    else if MAX_EXTRACT_SIZE < m.file_size then
      extractZipGo rest (warnings ++ [sizeWarning m]) contents files_list total_size
    else if MAX_TOTAL_SIZE < total_size + m.file_size then
      ⟨joinSep ['\n', '\n'] contents, files_list,
        [("format".toList, "ZIP".toList)], warnings ++ [totalSizeWarning]⟩
    else
      match m.read with
      | .ok chunks =>
        if chunks.isEmpty then
          extractZipGo rest warnings contents files_list (total_size + m.file_size)
        else
          extractZipGo rest warnings (contents ++ [chunks.flatten])
            (files_list ++ [m.filename]) (total_size + m.file_size)
      | .error e =>
        extractZipGo rest (warnings ++ [errorWarning m e]) contents files_list
          (total_size + m.file_size)

/-- `extract_from_zip` over a structurally valid (parsed) archive; the
function is total — every limit violation lands in `warnings`, never in an
exception (`ArchiveError` is raised only by the surrounding `except` for
archives the zip library cannot parse at all). -/
def extract_from_zip (members : List ZipMember) : ArchiveContent :=
  extractZipGo members [] [] [] 0

/-- Would this member be collected, state permitting: a non-directory
text-extension member within the size limit whose read yields content. -/
def collectible (m : ZipMember) : Bool :=
  !m.is_dir && isTextFile m.filename && decide (m.file_size ≤ MAX_EXTRACT_SIZE) &&
    (match m.read with | .ok chunks => !chunks.isEmpty | .error _ => false)

end ArchiveExtractors

namespace ArchiveExtractors

theorem extractZipGo_nil (w c f : List Str) (t : Nat) :
    extractZipGo [] w c f t =
      ⟨joinSep ['\n', '\n'] c, f, [("format".toList, "ZIP".toList)], w⟩ := rfl

theorem extractZipGo_count (m : ZipMember) (rest : List ZipMember)
    (w c f : List Str) (t : Nat) (h1 : MAX_FILES ≤ f.length) :
    extractZipGo (m :: rest) w c f t =
      ⟨joinSep ['\n', '\n'] c, f, [("format".toList, "ZIP".toList)],
        w ++ [fileCountWarning]⟩ := by
  conv_lhs => unfold extractZipGo
  rw [if_pos h1]

theorem extractZipGo_skip (m : ZipMember) (rest : List ZipMember)
    (w c f : List Str) (t : Nat) (h1 : ¬MAX_FILES ≤ f.length)
    (h2 : (m.is_dir || !isTextFile m.filename) = true) :
    extractZipGo (m :: rest) w c f t = extractZipGo rest w c f t := by
  conv_lhs => unfold extractZipGo
  rw [if_neg h1, if_pos h2]

theorem extractZipGo_size (m : ZipMember) (rest : List ZipMember)
    (w c f : List Str) (t : Nat) (h1 : ¬MAX_FILES ≤ f.length)
    (h2 : ¬(m.is_dir || !isTextFile m.filename) = true)
    (h3 : MAX_EXTRACT_SIZE < m.file_size) :
    extractZipGo (m :: rest) w c f t =
      extractZipGo rest (w ++ [sizeWarning m]) c f t := by
  conv_lhs => unfold extractZipGo
  rw [if_neg h1, if_neg h2, if_pos h3]

theorem extractZipGo_total (m : ZipMember) (rest : List ZipMember)
    (w c f : List Str) (t : Nat) (h1 : ¬MAX_FILES ≤ f.length)
    (h2 : ¬(m.is_dir || !isTextFile m.filename) = true)
    (h3 : ¬MAX_EXTRACT_SIZE < m.file_size)
    (h4 : MAX_TOTAL_SIZE < t + m.file_size) :
    extractZipGo (m :: rest) w c f t =
      ⟨joinSep ['\n', '\n'] c, f, [("format".toList, "ZIP".toList)],
        w ++ [totalSizeWarning]⟩ := by
  conv_lhs => unfold extractZipGo
  rw [if_neg h1, if_neg h2, if_neg h3, if_pos h4]

theorem extractZipGo_read_ok (m : ZipMember) (rest : List ZipMember)
    (w c f : List Str) (t : Nat) (chunks : List Str)
    (hm : m.read = Except.ok chunks) (h1 : ¬MAX_FILES ≤ f.length)
    (h2 : ¬(m.is_dir || !isTextFile m.filename) = true)
    (h3 : ¬MAX_EXTRACT_SIZE < m.file_size)
    (h4 : ¬MAX_TOTAL_SIZE < t + m.file_size) :
    extractZipGo (m :: rest) w c f t =
      if chunks.isEmpty then extractZipGo rest w c f (t + m.file_size)
      else extractZipGo rest w (c ++ [chunks.flatten]) (f ++ [m.filename])
        (t + m.file_size) := by
  conv_lhs => unfold extractZipGo
  rw [if_neg h1, if_neg h2, if_neg h3, if_neg h4, hm]

theorem extractZipGo_read_error (m : ZipMember) (rest : List ZipMember)
    (w c f : List Str) (t : Nat) (e : Str)
    (hm : m.read = Except.error e) (h1 : ¬MAX_FILES ≤ f.length)
    (h2 : ¬(m.is_dir || !isTextFile m.filename) = true)
    (h3 : ¬MAX_EXTRACT_SIZE < m.file_size)
    (h4 : ¬MAX_TOTAL_SIZE < t + m.file_size) :
    extractZipGo (m :: rest) w c f t =
      extractZipGo rest (w ++ [errorWarning m e]) c f (t + m.file_size) := by
  conv_lhs => unfold extractZipGo
  rw [if_neg h1, if_neg h2, if_neg h3, if_neg h4, hm]

theorem extractZipGo_warnings_mono :
    ∀ (ms : List ZipMember) (w c f : List Str) (t : Nat) (x : Str),
      x ∈ w → x ∈ (extractZipGo ms w c f t).warnings := by
  intro ms
  induction ms with
  | nil => intro w c f t x hx; exact hx
  | cons m rest ih =>
    intro w c f t x hx
    by_cases h1 : MAX_FILES ≤ f.length
    · rw [extractZipGo_count m rest w c f t h1]
      exact List.mem_append.mpr (Or.inl hx)
    · by_cases h2 : (m.is_dir || !isTextFile m.filename) = true
      · rw [extractZipGo_skip m rest w c f t h1 h2]
        exact ih w c f t x hx
      · by_cases h3 : MAX_EXTRACT_SIZE < m.file_size
        · rw [extractZipGo_size m rest w c f t h1 h2 h3]
          exact ih _ c f t x (List.mem_append.mpr (Or.inl hx))
        · by_cases h4 : MAX_TOTAL_SIZE < t + m.file_size
          · rw [extractZipGo_total m rest w c f t h1 h2 h3 h4]
            exact List.mem_append.mpr (Or.inl hx)
          · cases hr : m.read with
            | ok chunks =>
              rw [extractZipGo_read_ok m rest w c f t chunks hr h1 h2 h3 h4]
              by_cases h5 : chunks.isEmpty
              · rw [if_pos h5]; exact ih w c f _ x hx
              · rw [if_neg h5]; exact ih w _ _ _ x hx
            | error e =>
              rw [extractZipGo_read_error m rest w c f t e hr h1 h2 h3 h4]
              exact ih _ c f _ x (List.mem_append.mpr (Or.inl hx))

theorem extractZipGo_files_le :
    ∀ (ms : List ZipMember) (w c f : List Str) (t : Nat),
      f.length ≤ MAX_FILES → (extractZipGo ms w c f t).files.length ≤ MAX_FILES := by
  intro ms
  induction ms with
  | nil => intro w c f t hf; exact hf
  | cons m rest ih =>
    intro w c f t hf
    by_cases h1 : MAX_FILES ≤ f.length
    · rw [extractZipGo_count m rest w c f t h1]; exact hf
    · by_cases h2 : (m.is_dir || !isTextFile m.filename) = true
      · rw [extractZipGo_skip m rest w c f t h1 h2]; exact ih w c f t hf
      · by_cases h3 : MAX_EXTRACT_SIZE < m.file_size
        · rw [extractZipGo_size m rest w c f t h1 h2 h3]; exact ih _ c f t hf
        · by_cases h4 : MAX_TOTAL_SIZE < t + m.file_size
          · rw [extractZipGo_total m rest w c f t h1 h2 h3 h4]; exact hf
          · cases hr : m.read with
            | ok chunks =>
              rw [extractZipGo_read_ok m rest w c f t chunks hr h1 h2 h3 h4]
              by_cases h5 : chunks.isEmpty
              · rw [if_pos h5]; exact ih w c f _ hf
              · rw [if_neg h5]
                refine ih w _ (f ++ [m.filename]) _ ?_
                rw [List.length_append]
                simp only [List.length_cons, List.length_nil]
                omega
            | error e =>
              rw [extractZipGo_read_error m rest w c f t e hr h1 h2 h3 h4]
              exact ih _ c f _ hf

theorem extractZipGo_files_sources :
    ∀ (ms : List ZipMember) (w c f : List Str) (t : Nat),
      ∀ name ∈ (extractZipGo ms w c f t).files,
        name ∈ f ∨ ∃ m ∈ ms, m.filename = name ∧ m.is_dir = false ∧
          isTextFile m.filename = true ∧ m.file_size ≤ MAX_EXTRACT_SIZE := by
  intro ms
  induction ms with
  | nil => intro w c f t name hn; exact Or.inl hn
  | cons m rest ih =>
    intro w c f t name hn
    by_cases h1 : MAX_FILES ≤ f.length
    · rw [extractZipGo_count m rest w c f t h1] at hn; exact Or.inl hn
    · by_cases h2 : (m.is_dir || !isTextFile m.filename) = true
      · rw [extractZipGo_skip m rest w c f t h1 h2] at hn
        rcases ih w c f t name hn with h | ⟨m', hm', rest'⟩
        · exact Or.inl h
        · exact Or.inr ⟨m', by simp [hm'], rest'⟩
      · by_cases h3 : MAX_EXTRACT_SIZE < m.file_size
        · rw [extractZipGo_size m rest w c f t h1 h2 h3] at hn
          rcases ih _ c f t name hn with h | ⟨m', hm', rest'⟩
          · exact Or.inl h
          · exact Or.inr ⟨m', by simp [hm'], rest'⟩
        · by_cases h4 : MAX_TOTAL_SIZE < t + m.file_size
          · rw [extractZipGo_total m rest w c f t h1 h2 h3 h4] at hn
            exact Or.inl hn
          · have h2' : m.is_dir = false ∧ isTextFile m.filename = true := by
              simp only [Bool.or_eq_true, Bool.not_eq_true', not_or,
                Bool.not_eq_false] at h2
              exact ⟨by simpa using h2.1, h2.2⟩
            cases hr : m.read with
            | ok chunks =>
              rw [extractZipGo_read_ok m rest w c f t chunks hr h1 h2 h3 h4] at hn
              by_cases h5 : chunks.isEmpty
              · rw [if_pos h5] at hn
                rcases ih w c f _ name hn with h | ⟨m', hm', rest'⟩
                · exact Or.inl h
                · exact Or.inr ⟨m', by simp [hm'], rest'⟩
              · rw [if_neg h5] at hn
                rcases ih w _ (f ++ [m.filename]) _ name hn with h | ⟨m', hm', rest'⟩
                · rcases List.mem_append.mp h with h' | h'
                  · exact Or.inl h'
                  · simp only [List.mem_singleton] at h'
                    refine Or.inr ⟨m, by simp, h'.symm, h2'.1, h2'.2, by omega⟩
                · exact Or.inr ⟨m', by simp [hm'], rest'⟩
            | error e =>
              rw [extractZipGo_read_error m rest w c f t e hr h1 h2 h3 h4] at hn
              rcases ih _ c f _ name hn with h | ⟨m', hm', rest'⟩
              · exact Or.inl h
              · exact Or.inr ⟨m', by simp [hm'], rest'⟩

end ArchiveExtractors

namespace ArchiveExtractors

theorem extractZipGo_oversized_warned :
    ∀ (ms : List ZipMember) (w c f : List Str) (t : Nat), ∀ m ∈ ms,
      m.is_dir = false → isTextFile m.filename = true →
      MAX_EXTRACT_SIZE < m.file_size →
      fileCountWarning ∉ (extractZipGo ms w c f t).warnings →
      totalSizeWarning ∉ (extractZipGo ms w c f t).warnings →
      sizeWarning m ∈ (extractZipGo ms w c f t).warnings := by
  intro ms
  induction ms with
  | nil => intro w c f t m hm; simp at hm
  | cons m' rest ih =>
    intro w c f t m hm hdir htext hsize hnc hnt
    by_cases h1 : MAX_FILES ≤ f.length
    · exfalso
      apply hnc
      rw [extractZipGo_count m' rest w c f t h1]
      simp
    · by_cases h2 : (m'.is_dir || !isTextFile m'.filename) = true
      · rw [extractZipGo_skip m' rest w c f t h1 h2] at hnc hnt ⊢
        have hm' : m ∈ rest := by
          rcases List.mem_cons.mp hm with h | h
          · subst h
            rw [hdir, htext] at h2
            simp at h2
          · exact h
        exact ih w c f t m hm' hdir htext hsize hnc hnt
      · by_cases h3 : MAX_EXTRACT_SIZE < m'.file_size
        · rw [extractZipGo_size m' rest w c f t h1 h2 h3] at hnc hnt ⊢
          rcases List.mem_cons.mp hm with h | h
          · subst h
            exact extractZipGo_warnings_mono rest _ c f t (sizeWarning m)
              (by simp)
          · exact ih _ c f t m h hdir htext hsize hnc hnt
        · by_cases h4 : MAX_TOTAL_SIZE < t + m'.file_size
          · exfalso
            apply hnt
            rw [extractZipGo_total m' rest w c f t h1 h2 h3 h4]
            simp
          · have hm' : m ∈ rest := by
              rcases List.mem_cons.mp hm with h | h
              · subst h; omega
              · exact h
            cases hr : m'.read with
            | ok chunks =>
              rw [extractZipGo_read_ok m' rest w c f t chunks hr h1 h2 h3 h4]
                at hnc hnt ⊢
              by_cases h5 : chunks.isEmpty
              · rw [if_pos h5] at hnc hnt ⊢
                exact ih w c f _ m hm' hdir htext hsize hnc hnt
              · rw [if_neg h5] at hnc hnt ⊢
                exact ih w _ _ _ m hm' hdir htext hsize hnc hnt
            | error e =>
              rw [extractZipGo_read_error m' rest w c f t e hr h1 h2 h3 h4]
                at hnc hnt ⊢
              exact ih _ c f _ m hm' hdir htext hsize hnc hnt

theorem extractZipGo_count_stop :
    ∀ (ms : List ZipMember) (w c f : List Str) (t : Nat),
      f.length ≤ MAX_FILES →
      totalSizeWarning ∉ (extractZipGo ms w c f t).warnings →
      MAX_FILES < f.length + (ms.filter collectible).length →
      (extractZipGo ms w c f t).files.length = MAX_FILES ∧
        fileCountWarning ∈ (extractZipGo ms w c f t).warnings := by
  intro ms
  induction ms with
  | nil =>
    intro w c f t hf _ hover
    simp only [List.filter_nil, List.length_nil] at hover
    omega
  | cons m rest ih =>
    intro w c f t hf hnt hover
    by_cases h1 : MAX_FILES ≤ f.length
    · rw [extractZipGo_count m rest w c f t h1]
      refine ⟨by simp only []; omega, by simp⟩
    · push_neg at h1
      by_cases h2 : (m.is_dir || !isTextFile m.filename) = true
      · have hcoll : collectible m = false := by
          simp only [collectible]
          rcases Bool.or_eq_true _ _ |>.mp h2 with h | h
          · simp [h]
          · simp only [Bool.not_eq_true'] at h
            simp [h]
        rw [extractZipGo_skip m rest w c f t (by omega) h2] at hnt ⊢
        refine ih w c f t (by omega) hnt ?_
        simpa [List.filter_cons, hcoll] using hover
      · by_cases h3 : MAX_EXTRACT_SIZE < m.file_size
        · have hcoll : collectible m = false := by
            simp only [collectible]
            have : ¬ m.file_size ≤ MAX_EXTRACT_SIZE := by omega
            simp [this]
          rw [extractZipGo_size m rest w c f t (by omega) h2 h3] at hnt ⊢
          refine ih _ c f t (by omega) hnt ?_
          simpa [List.filter_cons, hcoll] using hover
        · by_cases h4 : MAX_TOTAL_SIZE < t + m.file_size
          · exfalso
            apply hnt
            rw [extractZipGo_total m rest w c f t (by omega) h2 h3 h4]
            simp
          · cases hr : m.read with
            | ok chunks =>
              rw [extractZipGo_read_ok m rest w c f t chunks hr (by omega) h2 h3 h4]
                at hnt ⊢
              by_cases h5 : chunks.isEmpty
              · have hcoll : collectible m = false := by
                  simp [collectible, hr, h5]
                rw [if_pos h5] at hnt ⊢
                refine ih w c f _ (by omega) hnt ?_
                simpa [List.filter_cons, hcoll] using hover
              · have hdirm : m.is_dir = false := by
                  simp only [Bool.or_eq_true, Bool.not_eq_true', not_or] at h2
                  simpa using h2.1
                have htxt : isTextFile m.filename = true := by
                  simp only [Bool.or_eq_true, Bool.not_eq_true', not_or] at h2
                  simpa using h2.2
                have hsz : m.file_size ≤ MAX_EXTRACT_SIZE := by omega
                have hcoll : collectible m = true := by
                  simp [collectible, hr, h5, hdirm, htxt, hsz]
                rw [if_neg h5] at hnt ⊢
                refine ih w _ (f ++ [m.filename]) _ ?_ hnt ?_
                · rw [List.length_append]
                  simp only [List.length_cons, List.length_nil]
                  omega
                · rw [List.length_append]
                  simp only [List.filter_cons, hcoll, if_true, List.length_cons,
                    List.length_nil] at hover ⊢
                  omega
            | error e =>
              have hcoll : collectible m = false := by
                simp [collectible, hr]
              rw [extractZipGo_read_error m rest w c f t e hr (by omega) h2 h3 h4]
                at hnt ⊢
              refine ih _ c f _ (by omega) hnt ?_
              simpa [List.filter_cons, hcoll] using hover

end ArchiveExtractors

/-- C6 (amended): `extract_from_zip` never collects more than 1000 members;
every collected file comes from a non-directory text member within the
10 MB limit (oversized members are always excluded); when extraction does
not stop early at the file-count or total-size limit, every oversized text
member gets its size-exceeded warning; and when more than 1000 collectible
members are present (and the total-size limit does not intervene) exactly
1000 are collected and the file-count warning is recorded.  The function
is total over parsed archives — limit violations produce warnings, never
exceptions. -/
theorem archive_extraction_limits (ms : List ArchiveExtractors.ZipMember) :
    ((ArchiveExtractors.extract_from_zip ms).files.length ≤
      ArchiveExtractors.MAX_FILES) ∧
    (∀ name ∈ (ArchiveExtractors.extract_from_zip ms).files,
      ∃ m ∈ ms, m.filename = name ∧ m.is_dir = false ∧
        ArchiveExtractors.isTextFile m.filename = true ∧
        m.file_size ≤ ArchiveExtractors.MAX_EXTRACT_SIZE) ∧
    (ArchiveExtractors.fileCountWarning ∉
        (ArchiveExtractors.extract_from_zip ms).warnings →
     ArchiveExtractors.totalSizeWarning ∉
        (ArchiveExtractors.extract_from_zip ms).warnings →
     ∀ m ∈ ms, m.is_dir = false →
        ArchiveExtractors.isTextFile m.filename = true →
        ArchiveExtractors.MAX_EXTRACT_SIZE < m.file_size →
        ArchiveExtractors.sizeWarning m ∈
          (ArchiveExtractors.extract_from_zip ms).warnings) ∧
    (ArchiveExtractors.totalSizeWarning ∉
        (ArchiveExtractors.extract_from_zip ms).warnings →
     ArchiveExtractors.MAX_FILES <
        (ms.filter ArchiveExtractors.collectible).length →
     (ArchiveExtractors.extract_from_zip ms).files.length =
        ArchiveExtractors.MAX_FILES ∧
       ArchiveExtractors.fileCountWarning ∈
        (ArchiveExtractors.extract_from_zip ms).warnings) := by
  refine ⟨?_, ?_, ?_, ?_⟩
  · exact ArchiveExtractors.extractZipGo_files_le ms [] [] [] 0 (by simp [ArchiveExtractors.MAX_FILES])
  · intro name hn
    rcases ArchiveExtractors.extractZipGo_files_sources ms [] [] [] 0 name hn with h | h
    · simp at h
    · exact h
  · intro hnc hnt m hm hdir htext hsize
    exact ArchiveExtractors.extractZipGo_oversized_warned ms [] [] [] 0 m hm
      hdir htext hsize hnc hnt
  · intro hnt hover
    exact ArchiveExtractors.extractZipGo_count_stop ms [] [] [] 0
      (by simp [ArchiveExtractors.MAX_FILES]) hnt (by simpa using hover)

/-- Witness for C6's amended theorem: a single 10 MB + 1 byte text member is
excluded and receives its size warning (no stop limit interferes). -/
theorem archive_extraction_limits_witness :
    ArchiveExtractors.sizeWarning
        ⟨"big.txt".toList, false, 10485761, .ok ["data".toList]⟩ ∈
      (ArchiveExtractors.extract_from_zip
        [⟨"big.txt".toList, false, 10485761, .ok ["data".toList]⟩]).warnings :=
  (archive_extraction_limits
      [⟨"big.txt".toList, false, 10485761, .ok ["data".toList]⟩]).2.2.1
    (by decide) (by decide)
    ⟨"big.txt".toList, false, 10485761, .ok ["data".toList]⟩
    (by simp) rfl (by decide) (by decide)

/-- The C6 counterexample archive: 1000 one-byte text members followed by
one 10 MB + 1 byte text member. -/
def archiveCounterexampleMembers : List ArchiveExtractors.ZipMember :=
  List.replicate 1000
    (⟨"a.txt".toList, false, 1, .ok ["x".toList]⟩ : ArchiveExtractors.ZipMember)
    ++ [⟨"big.txt".toList, false, 10485761, .ok ["data".toList]⟩]

set_option maxRecDepth 100000 in
/-- Counterexample to C6 as stated: in an archive whose first 1000 text
members fill the file-count limit, a 1001st text member larger than 10 MB
is excluded from the output but *no* size-exceeded warning is recorded for
it — the loop breaks with only the file-count warning before examining the
member. -/
theorem archive_extraction_limits_counterexample :
    (ArchiveExtractors.MAX_EXTRACT_SIZE <
      (10485761 : Nat)) ∧
    (ArchiveExtractors.extract_from_zip archiveCounterexampleMembers).warnings
      = [ArchiveExtractors.fileCountWarning] ∧
    (ArchiveExtractors.extract_from_zip archiveCounterexampleMembers).files.length
      = 1000 ∧
    ArchiveExtractors.sizeWarning
        ⟨"big.txt".toList, false, 10485761, .ok ["data".toList]⟩ ∉
      (ArchiveExtractors.extract_from_zip archiveCounterexampleMembers).warnings ∧
    "big.txt".toList ∉
      (ArchiveExtractors.extract_from_zip archiveCounterexampleMembers).files := by
  refine ⟨by decide, ?_, ?_, ?_, ?_⟩ <;> decide

namespace ProjectAnalyzer

/-- An unzipped snapshot as `diff_files` sees it after `gather_files` /
`read_file_safely`: relative filename → the list of lines read (file I/O
is an OS boundary; the association holds what the walk found). -/
abbrev Snapshot := List (Str × List Str)

/-- `agents/project_analyzer/config.FILE_EXTENSIONS` (default
`.py,.md,.yaml,.yml,.json,.txt`). -/
def FILE_EXTENSIONS : List Str :=
  [".py".toList, ".md".toList, ".yaml".toList, ".yml".toList,
   ".json".toList, ".txt".toList]

/-- `gather_files`: the snapshot's filenames with an allowed extension, as
a set (deduplicated). -/
def gather_files (snap : Snapshot) (exts : List Str) : List Str :=
  ((snap.map Prod.fst).filter (fun f => exts.any (fun e => List.isSuffixOf e f))).dedup

/-- Python string `<` (lexicographic by code point), as `sorted` uses it. -/
def strLe : Str → Str → Bool
  | [], _ => true
  | _ :: _, [] => false
  | a :: as, b :: bs => if a < b then true else if b < a then false else strLe as bs

/-- Python `sorted` (stable). -/
def pySorted (l : List Str) : List Str :=
  List.insertionSort (fun a b => strLe a b = true) l

/-- One entry of `diff_files`' `modified` list. -/
structure ModEntry where
  file : Str
  diff : Str
deriving DecidableEq, Repr

/-- The lines of file `f` in a snapshot (what `read_file_safely` returned
for it). -/
def lookupLines (snap : Snapshot) (f : Str) : List Str :=
  ((snap.find? (fun kv => kv.1 == f)).map Prod.snd).getD []

/-- `@@ -1 +1 @@`-style range: the length is omitted when it is 1. -/
def hunkRange (n : Nat) : Str :=
  if n = 1 then "1".toList else "1,".toList ++ ArchiveExtractors.natToStr n

/-- Modelled from the spec: Python `difflib.unified_diff` with
`lineterm=''` (a boundary standard-library function; the spec's words:
"for files present in both, a unified-diff snippet capped at the first 50
lines when their contents differ").  The unified-diff format is modelled
as one replacement hunk — `---`/`+++` headers, a hunk header, the removed
lines prefixed `-`, the added lines prefixed `+` — which coincides with
`difflib`'s minimal-diff output on the whole-content replacements
exercised here. -/
def unified_diff (a b : List Str) (fromfile tofile : Str) : List Str :=
  if a == b then []
  else
    ["--- ".toList ++ fromfile, "+++ ".toList ++ tofile,
      "@@ -".toList ++ hunkRange a.length ++ " +".toList ++
        hunkRange b.length ++ " @@".toList]
      ++ a.map (fun l => '-' :: l) ++ b.map (fun l => '+' :: l)

/-- `diff_files`: `added` / `removed` / `modified` between two snapshots. -/
def diff_files (prev curr : Snapshot) : List Str × List Str × List ModEntry :=
  let prev_files := gather_files prev FILE_EXTENSIONS
  let curr_files := gather_files curr FILE_EXTENSIONS
  let added := pySorted (curr_files.filter (fun f => !prev_files.contains f))
  let removed := pySorted (prev_files.filter (fun f => !curr_files.contains f))
  let common := pySorted (prev_files.filter (fun f => curr_files.contains f))
  let modified := common.filterMap (fun f =>
    if lookupLines prev f ≠ lookupLines curr f then
      some ⟨f, ((unified_diff (lookupLines prev f) (lookupLines curr f) f f).take 50).flatten⟩
    else none)
  (added, removed, modified)

theorem mem_pySorted (l : List Str) (x : Str) : x ∈ pySorted l ↔ x ∈ l :=
  (List.perm_insertionSort _ l).mem_iff

theorem mem_gather_files (snap : Snapshot) (exts : List Str) (f : Str) :
    f ∈ gather_files snap exts ↔
      f ∈ snap.map Prod.fst ∧ exts.any (fun e => List.isSuffixOf e f) = true := by
  unfold gather_files
  rw [List.mem_dedup, List.mem_filter]

end ProjectAnalyzer

/-- C7: `diff_files` partitions the two snapshots' file sets correctly:
`added` is exactly the allowed-extension files of the current snapshot
absent from the previous one, `removed` the converse, and `modified`
covers exactly the common files whose line contents differ.  On the spec's
scenario — previous `{a.py: "x=1"}`, current `{a.py: "x=2", b.py}` — it
reports `added = ["b.py"]`, `removed = []`, and exactly one modified entry
for `a.py` whose unified-diff snippet shows the one-line change
(`-x=1` / `+x=2`). -/
theorem project_analyzer_diff_files (prev curr : ProjectAnalyzer.Snapshot) :
    (∀ f, f ∈ (ProjectAnalyzer.diff_files prev curr).1 ↔
      (f ∈ ProjectAnalyzer.gather_files curr ProjectAnalyzer.FILE_EXTENSIONS ∧
       f ∉ ProjectAnalyzer.gather_files prev ProjectAnalyzer.FILE_EXTENSIONS)) ∧
    (∀ f, f ∈ (ProjectAnalyzer.diff_files prev curr).2.1 ↔
      (f ∈ ProjectAnalyzer.gather_files prev ProjectAnalyzer.FILE_EXTENSIONS ∧
       f ∉ ProjectAnalyzer.gather_files curr ProjectAnalyzer.FILE_EXTENSIONS)) ∧
    (∀ e, e ∈ (ProjectAnalyzer.diff_files prev curr).2.2 ↔
      (e.file ∈ ProjectAnalyzer.gather_files prev ProjectAnalyzer.FILE_EXTENSIONS ∧
       e.file ∈ ProjectAnalyzer.gather_files curr ProjectAnalyzer.FILE_EXTENSIONS ∧
       ProjectAnalyzer.lookupLines prev e.file ≠ ProjectAnalyzer.lookupLines curr e.file ∧
       e.diff = ((ProjectAnalyzer.unified_diff (ProjectAnalyzer.lookupLines prev e.file)
         (ProjectAnalyzer.lookupLines curr e.file) e.file e.file).take 50).flatten)) ∧
    (ProjectAnalyzer.diff_files
        [("a.py".toList, ["x=1".toList])]
        [("a.py".toList, ["x=2".toList]), ("b.py".toList, ["print(1)".toList])]
      = (["b.py".toList], [],
          [⟨"a.py".toList,
            "--- a.py+++ a.py@@ -1 +1 @@-x=1+x=2".toList⟩])) := by
  refine ⟨?_, ?_, ?_, by decide⟩
  · intro f
    show f ∈ ProjectAnalyzer.pySorted _ ↔ _
    rw [ProjectAnalyzer.mem_pySorted, List.mem_filter]
    simp only [Bool.not_eq_true', ← Bool.not_eq_true]
    rw [List.elem_iff]
  · intro f
    show f ∈ ProjectAnalyzer.pySorted _ ↔ _
    rw [ProjectAnalyzer.mem_pySorted, List.mem_filter]
    simp only [Bool.not_eq_true', ← Bool.not_eq_true]
    rw [List.elem_iff]
  · intro e
    show e ∈ List.filterMap _ (ProjectAnalyzer.pySorted _) ↔ _
    rw [List.mem_filterMap]
    constructor
    · rintro ⟨f, hf, hsome⟩
      rw [ProjectAnalyzer.mem_pySorted, List.mem_filter] at hf
      by_cases hne : ProjectAnalyzer.lookupLines prev f ≠ ProjectAnalyzer.lookupLines curr f
      · rw [if_pos hne] at hsome
        cases hsome
        refine ⟨hf.1, ?_, hne, rfl⟩
        rw [← List.elem_iff]
        exact hf.2
      · rw [if_neg hne] at hsome
        cases hsome
    · rintro ⟨hprev, hcurr, hne, hdiff⟩
      refine ⟨e.file, ?_, ?_⟩
      · rw [ProjectAnalyzer.mem_pySorted, List.mem_filter]
        refine ⟨hprev, ?_⟩
        rw [List.elem_iff]
        exact hcurr
      · rw [if_pos hne]
        cases e
        simp only [Option.some.injEq, ProjectAnalyzer.ModEntry.mk.injEq,
          true_and]
        exact hdiff.symm
